/-
Verification development for the slotmap repository (src/slotmap.hpp).

The file shallowly embeds the debug-build (NDEBUG not defined) semantics of
the header-only generational slot map:

* `Handle` is the 32-bit packed handle (24-bit index, 8-bit generation).
* `FreeList` is the circular-buffer FIFO of recyclable slot indices.
  Machine memory is a `List Nat`; `malloc`-fresh cells are modelled as 0
  (they are only read after being written on the paths proved here, and
  concrete counterexamples fix all cell contents explicitly).
* `SlotMap` carries the backing object array (`Option` cells: `none` means
  no live object is present in the raw storage), the per-slot `uint32`
  generation counters (arithmetic is mod 2^32), the free list and the
  dead-slot counter.

Operations that can hit undefined behaviour or a failing `assert` in the
source (out-of-bounds access, popping an empty free list, the overflow
asserts in `resize` and the `Handle` constructor) return `none`; defined
executions return `some`.
-/
import Mathlib

set_option maxRecDepth 20000

namespace Slotmap

/-- 24-bit index space: `Handle::MAX_HANDLES = 0xFFFFFF`. -/
def MAX_HANDLES : Nat := 0xFFFFFF

/-- 8-bit generation space: `Handle::MAX_GENERATIONS = 0xFF`. -/
def MAX_GENERATIONS : Nat := 0xFF

/-- Modulus of the `uint32_t` generation counters. -/
def U32 : Nat := 2 ^ 32

/-- The packed handle: `m_index` (24 bits) and `m_generation` (8 bits).
Equality of handles is bitwise equality of the pair, which coincides with
structural equality of the two fields. -/
structure Handle where
  index : Nat
  generation : Nat
deriving DecidableEq

/-- `Handle::isValid`: index below the null sentinel and generation below
the exhaustion marker. -/
def Handle.isValid (h : Handle) : Bool :=
  decide (h.index < MAX_HANDLES) && decide (h.generation < MAX_GENERATIONS)

/-- A default-constructed handle: `m_index{MAX_HANDLES}`,
`m_generation{MAX_GENERATIONS}`. -/
def Handle.nullHandle : Handle :=
  ⟨MAX_HANDLES, MAX_GENERATIONS⟩

/-- The circular-buffer free list.  The capacity field of the C++ class is
always the allocation size, so it is represented by `buffer.length`. -/
structure FreeList where
  buffer : List Nat
  head : Nat
  tail : Nat
deriving DecidableEq

/-- `FreeList::FreeList(initial_capacity)`: `malloc` of `initial_capacity`
cells (uninitialised memory modelled as zeros), cursors at 0.  The default
argument in the source is 1024. -/
def FreeList.init (initial_capacity : Nat) : FreeList :=
  ⟨List.replicate initial_capacity 0, 0, 0⟩

/-- `m_capacity` of the free list. -/
def FreeList.capacity (fl : FreeList) : Nat := fl.buffer.length

/-- `memcpy(&l[pos], seg_source, seg.length * 4)`: overwrite `seg.length`
cells of `l` starting at `pos` with `seg`. -/
def writeSeg (l : List Nat) (pos : Nat) (seg : List Nat) : List Nat :=
  l.take pos ++ seg ++ l.drop (pos + seg.length)

/-- The wrapped-full grow branch of `FreeList::push` (the body of the
`else if (m_tail == m_head - 1)` branch, lines 177-196): double the
capacity with `realloc`, `memcpy` the wrapped entries `buffer[0..tail)` to
`buffer[old_size..old_size+tail)`, and recompute
`m_tail = m_head + old_size - 1`.  In the source `old_size` is the old
capacity. -/
def FreeList.growWrapped (fl : FreeList) : FreeList :=
  let old_size := fl.capacity
  let buf := fl.buffer ++ List.replicate fl.capacity 0
  let buf2 := writeSeg buf old_size (fl.buffer.take fl.tail)
  ⟨buf2, fl.head, fl.head + old_size - 1⟩

/-- The grow half of `FreeList::push` (lines 166-196): the `m_head == 0`
branch does a plain doubling `realloc` when full (SLOTMAP_RESIZE_MULTIPLIER
is 2, modelled by appending `capacity` fresh cells); the
`m_tail == m_head - 1` branch is the wrapped-full relocation. -/
def FreeList.growIfNeeded (fl : FreeList) : FreeList :=
  if fl.head = 0 then
    if fl.tail = fl.capacity then
      ⟨fl.buffer ++ List.replicate fl.capacity 0, fl.head, fl.tail⟩
    else fl
  else if fl.tail = fl.head - 1 then
    fl.growWrapped
  else fl

/-- The write half of `FreeList::push` (lines 198-201): wrap the write
cursor from `capacity` to 0, store, post-increment. -/
def FreeList.pushWrite (fl1 : FreeList) (index : Nat) : FreeList :=
  let t := if fl1.tail = fl1.capacity then 0 else fl1.tail
  ⟨fl1.buffer.set t index, fl1.head, t + 1⟩

/-- `FreeList::push` (lines 164-202): the grow step followed by the
write step. -/
def FreeList.push (fl : FreeList) (index : Nat) : FreeList :=
  (fl.growIfNeeded).pushWrite index

/-- `FreeList::pop` (lines 204-215).  The source asserts `!empty()` before
reading; callers in this file guard the call correspondingly, and the
`getD` default 0 is never read on guarded paths. -/
def FreeList.pop (fl : FreeList) : Nat × FreeList :=
  let ret := fl.buffer.getD fl.head 0
  let h := fl.head + 1
  if h ≥ fl.capacity then
    (ret, ⟨fl.buffer, 0, if fl.tail ≥ fl.capacity then 0 else fl.tail⟩)
  else
    (ret, ⟨fl.buffer, h, fl.tail⟩)

/-- `FreeList::empty`. -/
def FreeList.emptyq (fl : FreeList) : Bool := fl.head == fl.tail

/-- `FreeList::size` (lines 219-225). -/
def FreeList.size (fl : FreeList) : Nat :=
  if fl.tail < fl.head then fl.tail + fl.capacity - fl.head
  else fl.tail - fl.head

/-- The logical content of the circular buffer, oldest first: the `size`
cells starting at `head`, wrapping modulo the capacity. -/
def FreeList.toList (fl : FreeList) : List Nat :=
  (List.range fl.size).map fun k => fl.buffer.getD ((fl.head + k) % fl.capacity) 0

/-- Structural well-formedness of the cursors; maintained by every
operation and used as a hypothesis of the general theorems. -/
def wfFL (fl : FreeList) : Prop :=
  fl.head < fl.capacity ∧ fl.tail ≤ fl.capacity

instance (fl : FreeList) : Decidable (wfFL fl) := by
  unfold wfFL; infer_instance

/-- Result of `SlotMap::get`: `undef` marks an execution with no defined
result (out-of-bounds access), `null` is a returned `nullptr`, `deadPtr`
is a returned non-null pointer to a slot that holds no live object, and
`live v` is a returned pointer to the live object `v`. -/
inductive GetRes (α : Type) where
  | undef : GetRes α
  | null : GetRes α
  | deadPtr : GetRes α
  | live : α → GetRes α
deriving DecidableEq

/-- `SlotMap<T>` state.  `data` is the raw object array: `none` cells hold
no live object (uninitialised or destroyed storage). -/
structure SlotMap (α : Type) where
  handle_count : Nat
  minimum_queue_handles : Nat
  data : List (Option α)
  generations : List Nat
  freelist : FreeList
  dead_indices : Nat
deriving DecidableEq

/-- Push a whole list of indices in order (the push loops of the `SlotMap`
constructor and of `SlotMap::resize`). -/
def pushAll (fl : FreeList) (xs : List Nat) : FreeList :=
  xs.foldl FreeList.push fl

/-- `SlotMap::SlotMap(initial_capacity, minimum_available_handles)`
(lines 227-247).  `m_freelist` is default-constructed with buffer capacity
1024, then the constructor pushes `0..initial_capacity-1`.  The source
asserts `initial_capacity > 0` and
`initial_capacity > minimum_available_handles`; theorems that need these
carry them as hypotheses. -/
def SlotMap.init (α : Type) (initial_capacity minimum_available_handles : Nat) :
    SlotMap α :=
  { handle_count := initial_capacity
    minimum_queue_handles := minimum_available_handles
    data := List.replicate initial_capacity none
    generations := List.replicate initial_capacity 0
    freelist := pushAll (FreeList.init 1024) (List.range initial_capacity)
    dead_indices := 0 }

/-- `SlotMap::capacity`. -/
def SlotMap.capacity {α : Type} (s : SlotMap α) : Nat := s.handle_count

/-- `SlotMap::validCount`:
`capacity() - static_cast<uint32_t>(m_freelist.size()) - m_dead_indices`
in `uint32` arithmetic. -/
def SlotMap.validCount {α : Type} (s : SlotMap α) : Nat :=
  (((s.handle_count : Int) - ((s.freelist.size % U32 : Nat) : Int) -
      ((s.dead_indices % U32 : Nat) : Int)) % (U32 : Int)).toNat

/-- `SlotMap::needNewHandles` (lines 364-370). -/
def SlotMap.needNewHandles {α : Type} (s : SlotMap α) : Bool :=
  decide (s.freelist.size < s.minimum_queue_handles)

/-- `SlotMap::resize` (lines 372-392): double `m_handle_count`, `realloc`
both arrays (prefix preserved), `memset` the new generations to 0, and
push the fresh indices.  The source asserts
`m_handle_count <= MAX_HANDLES` after doubling; a violation is modelled as
`none`. -/
def SlotMap.resize {α : Type} (s : SlotMap α) : Option (SlotMap α) :=
  let old := s.handle_count
  let hc := old * 2
  if hc ≤ MAX_HANDLES then
    some { s with
      handle_count := hc
      data := s.data ++ List.replicate (hc - old) none
      generations := s.generations ++ List.replicate (hc - old) 0
      freelist := pushAll s.freelist (List.range' old (hc - old)) }
  else none

/-- The grow-check prefix shared by `insert` and `emplace`:
`if (needNewHandles()) resize();`. -/
def SlotMap.preAlloc {α : Type} (s : SlotMap α) : Option (SlotMap α) :=
  if s.needNewHandles then s.resize else some s

/-- `SlotMap::insert` (lines 285-299): grow if needed, pop an index
(asserted non-empty), assert `index < m_handle_count`, placement-construct
a copy of the item, and build the handle from the current slot generation.
The `Handle` constructor (lines 29-36) stores the index and the generation
into 24- and 8-bit bitfields, truncating them modulo 2^24 and 2^8, and its
asserts - like the following `assert(h.isValid())` - test the TRUNCATED
fields, so for example a slot generation of 256 is stored as handle
generation 0 and the insert is serviced normally. -/
def SlotMap.insert {α : Type} (s : SlotMap α) (item : α) :
    Option (Handle × SlotMap α) :=
  match s.preAlloc with
  | none => none
  | some s1 =>
    if s1.freelist.emptyq then none
    else
      let p := s1.freelist.pop
      let index := p.1
      if index < s1.handle_count then
        match s1.generations.get? index with
        | some g =>
          let h : Handle :=
            ⟨index % (MAX_HANDLES + 1), g % (MAX_GENERATIONS + 1)⟩
          if h.isValid then
            some (h,
              { s1 with freelist := p.2, data := s1.data.set index (some item) })
          else none
        | none => none
      else none

/-- `SlotMap::emplace` (lines 301-317), invoked with a single constructor
argument of type `α`: `T{args...}` then constructs a value equal to that
argument, so the body mirrors `insert` with the same constructed value,
including the bitfield truncation in the `Handle` construction. -/
def SlotMap.emplace {α : Type} (s : SlotMap α) (item : α) :
    Option (Handle × SlotMap α) :=
  match s.preAlloc with
  | none => none
  | some s1 =>
    if s1.freelist.emptyq then none
    else
      let p := s1.freelist.pop
      let index := p.1
      if index < s1.handle_count then
        match s1.generations.get? index with
        | some g =>
          let h : Handle :=
            ⟨index % (MAX_HANDLES + 1), g % (MAX_GENERATIONS + 1)⟩
          if h.isValid then
            some (h,
              { s1 with freelist := p.2, data := s1.data.set index (some item) })
          else none
        | none => none
      else none

/-- `SlotMap::remove` (lines 319-336).  With NDEBUG undefined the guard
rejects a structurally invalid handle or `m_index > m_handle_count` (note:
strict `>`, so `m_index == m_handle_count` passes).  Then the destructor
runs, the `uint32` generation is pre-incremented, and the index is pushed
back unless the new generation reaches `MAX_GENERATIONS`.  An out-of-bounds
access (`m_index == m_handle_count`) is `none`. -/
def SlotMap.remove {α : Type} (s : SlotMap α) (h : Handle) :
    Option (SlotMap α) :=
  if h.isValid = false ∨ h.index > s.handle_count then some s
  else
    match s.generations.get? h.index with
    | none => none
    | some g =>
      let gen := (g + 1) % U32
      let s' := { s with
        data := s.data.set h.index none
        generations := s.generations.set h.index gen }
      if gen < MAX_GENERATIONS then
        some { s' with freelist := s'.freelist.push h.index }
      else
        some { s' with dead_indices := s.dead_indices + 1 }

/-- `SlotMap::get` (lines 338-351).  Same debug guard as `remove` (strict
`>`), then the stored generation is compared with
`m_generations[index]`; on a match the address of the slot is returned. -/
def SlotMap.get {α : Type} (s : SlotMap α) (h : Handle) : GetRes α :=
  if h.isValid = false ∨ h.index > s.handle_count then GetRes.null
  else
    match s.generations.get? h.index with
    | none => GetRes.undef
    | some g =>
      if h.generation = g then
        match s.data.get? h.index with
        | some (some v) => GetRes.live v
        | some none => GetRes.deadPtr
        | none => GetRes.undef
      else GetRes.null

/-- Structural well-formedness of a map state: the two arrays have
`m_handle_count` cells and the free-list cursors are in range.
Established by `SlotMap.init` and preserved by all operations. -/
def SlotMap.wf {α : Type} (s : SlotMap α) : Prop :=
  s.data.length = s.handle_count ∧
  s.generations.length = s.handle_count ∧
  wfFL s.freelist

instance {α : Type} (s : SlotMap α) : Decidable (s.wf) := by
  unfold SlotMap.wf; infer_instance

/-- One well-used mutating operation: a successful `insert` or `emplace`,
or a `remove` of a handle whose stored generation matches the live slot
generation (the validated removal the specification describes). -/
inductive VStep {α : Type} : SlotMap α → SlotMap α → Prop
  | ins (v : α) (h : Handle) (s s' : SlotMap α) :
      s.insert v = some (h, s') → VStep s s'
  | emp (v : α) (h : Handle) (s s' : SlotMap α) :
      s.emplace v = some (h, s') → VStep s s'
  | rem (h : Handle) (s s' : SlotMap α) :
      h.isValid = true → s.generations.get? h.index = some h.generation →
      s.remove h = some s' → VStep s s'

/-- Any finite sequence of well-used mutating operations. -/
def VChain {α : Type} : SlotMap α → SlotMap α → Prop :=
  Relation.ReflTransGen VStep

/-- A retired (exhausted) slot: in range, generation parked at the
overflow marker, absent from the free list. -/
def RetiredInv {α : Type} (i : Nat) (s : SlotMap α) : Prop :=
  i < s.handle_count ∧ s.generations.get? i = some MAX_GENERATIONS ∧
  i ∉ s.freelist.toList

/-- Iterated insertion of the value 0, used for the growth-threshold
claims. -/
def insN : Nat → SlotMap Nat → Option (SlotMap Nat)
  | 0, s => some s
  | n + 1, s => (s.insert 0).bind fun p => insN n p.2

/-- The handle issued by the very first insertion into a fresh map. -/
def h00 : Handle := ⟨0, 0⟩

/-- A fresh map with capacity 2 and minimum-available threshold 1. -/
def cexStart : SlotMap Nat := SlotMap.init Nat 2 1

/-- The state after inserting the value 5 into `cexStart` (slot 0,
generation 0). -/
def cexS1 : SlotMap Nat := ((cexStart.insert 5).map Prod.snd).getD cexStart

/-- Iterated removal through the fixed handle `h00`; `none` as soon as one
step is undefined. -/
def remIter : Nat → SlotMap Nat → Option (SlotMap Nat)
  | 0, s => some s
  | n + 1, s => (s.remove h00).bind (remIter n)

/-- The free-list buffer contents shared by the states of the repeated
removal trace: the construction wrote 0 and 1 into cells 0 and 1, the
first insertion consumed cell 0, and every later push re-stores the
value 0 into cells whose model content is already 0. -/
def B254v : List Nat := (List.replicate 1024 0).set 1 1

/-- The family of states reached while removals drive the generation of
slot 0 upward: generation `g`, dead counter `d`, free list holding the
255 queued entries (slot 1 and 254 duplicate pushes of slot 0). -/
def midS (g d : Nat) : SlotMap Nat :=
  ⟨2, 1, [none, none], [g, 0], ⟨B254v, 1, 256⟩, d⟩

/-- The state after 2^32 removals through `h00`: the generation of slot 0
has wrapped back to 0 and the slot has been pushed once more. -/
def cexSF : SlotMap Nat :=
  ⟨2, 1, [none, none], [0, 0], ⟨B254v.set 256 0, 1, 257⟩, U32 - 255⟩

/-- `cexSF` after inserting 6 (consumes slot 1). -/
def cexSG : SlotMap Nat := ((cexSF.insert 6).map Prod.snd).getD cexSF

/-- `cexSG` after inserting 7 (reuses slot 0 at generation 0). -/
def cexSH : SlotMap Nat := ((cexSG.insert 7).map Prod.snd).getD cexSG

/-- The state after the stale-generation removal of `h00` from `cexS1`. -/
def c2after : SlotMap Nat := (cexS1.remove ⟨0, 1⟩).getD cexS1

/-- A fresh map with capacity 3 and minimum-available threshold 1, and
the successive states of the double-removal trace on it. -/
def c5s0 : SlotMap Nat := SlotMap.init Nat 3 1

/-- `c5s0` after inserting 5 (slot 0, generation 0). -/
def c5s1 : SlotMap Nat := ((c5s0.insert 5).map Prod.snd).getD c5s0

/-- `c5s1` after the first (valid) removal of handle (0,0). -/
def c5s2 : SlotMap Nat := (c5s1.remove ⟨0, 0⟩).getD c5s1

/-- `c5s2` after the second (stale) removal of the same handle: slot 0 is
now queued twice. -/
def c5s3 : SlotMap Nat := (c5s2.remove ⟨0, 0⟩).getD c5s2

/-- `c5s3` after inserting 6 (slot 1). -/
def c5s4 : SlotMap Nat := ((c5s3.insert 6).map Prod.snd).getD c5s3

/-- `c5s4` after inserting 7 (slot 2). -/
def c5s5 : SlotMap Nat := ((c5s4.insert 7).map Prod.snd).getD c5s4

/-- `c5s5` after inserting 8 (slot 0, first duplicate). -/
def c5s6 : SlotMap Nat := ((c5s5.insert 8).map Prod.snd).getD c5s5

/-- `c5s6` after inserting 9 (slot 0 again, immediately). -/
def c5s7 : SlotMap Nat := ((c5s6.insert 9).map Prod.snd).getD c5s6

/-- A free list of capacity 16 filled with the indices 0..15. -/
def c7F : FreeList := pushAll (FreeList.init 16) (List.range 16)

/-- `c7F` after one pop (returns 0, head moves to 1). -/
def c7F1 : FreeList := (c7F.pop).2

/-- `c7F1` after one more push: the missed-full corner makes
head = tail and the whole content unreachable. -/
def c7F2 : FreeList := c7F1.push 99

/-- A well-formed two-slot state in which slot 0 was removed once
(generation 1) and both slots are free; used to witness the invalidation
theorem. -/
def wit1s : SlotMap Nat :=
  ⟨2, 1, [none, none], [1, 0],
    ⟨((List.replicate 1024 0).set 0 1).set 1 0, 0, 2⟩, 0⟩

/-- `wit1s` after inserting 6 (slot 1). -/
def wit1t : SlotMap Nat := ((wit1s.insert 6).map Prod.snd).getD wit1s

/-- A well-formed two-slot state in which slot 0 is live at generation
254 (one removal short of exhaustion) and slot 1 is free. -/
def wit6 : SlotMap Nat :=
  ⟨2, 1, [some 9, none], [254, 0],
    ⟨(List.replicate 1024 0).set 0 1, 0, 1⟩, 0⟩

/-- `wit6` after the exhausting removal of handle (0, 254). -/
def wit6after : SlotMap Nat := (wit6.remove ⟨0, 254⟩).getD wit6

/-- A wrapped-full free list (tail = head - 1): capacity 4 holding the
FIFO content 9, 10, 7 starting at cell 2. -/
def c8fl : FreeList := ⟨[7, 8, 9, 10], 2, 1⟩

/-- `midS 256 2` after inserting 6 (slot 1, generation 0). -/
def mid256A : SlotMap Nat :=
  (((midS 256 2).insert 6).map Prod.snd).getD (midS 256 2)

/-- `mid256A` after inserting 7: slot 0 is re-issued while its stored
generation is 256, so the handle generation is the truncated 0. -/
def mid256B : SlotMap Nat := ((mid256A.insert 7).map Prod.snd).getD mid256A

/-- A well-formed state whose capacity exceeds the 24-bit handle range:
slot 0 is live at generation 254 and the free list holds the single index
2^24 = MAX_HANDLES + 1, which truncates to handle index 0. -/
def bigS0 : SlotMap Nat :=
  ⟨MAX_HANDLES + 2, 1, List.replicate (MAX_HANDLES + 2) none,
    (List.replicate (MAX_HANDLES + 2) 0).set 0 254,
    ⟨[MAX_HANDLES + 1, 0], 0, 1⟩, 0⟩

/-- `bigS0` after the exhausting removal of handle (0, 254): slot 0 is
retired. -/
def bigS1 : SlotMap Nat :=
  ⟨MAX_HANDLES + 2, 1, (List.replicate (MAX_HANDLES + 2) none).set 0 none,
    ((List.replicate (MAX_HANDLES + 2) 0).set 0 254).set 0 255,
    ⟨[MAX_HANDLES + 1, 0], 0, 1⟩, 1⟩

/-- `bigS1` after inserting 9: the popped index 2^24 truncates to handle
index 0, aliasing the retired slot. -/
def bigS2 : SlotMap Nat :=
  ⟨MAX_HANDLES + 2, 1,
    ((List.replicate (MAX_HANDLES + 2) none).set 0 none).set
      (MAX_HANDLES + 1) (some 9),
    ((List.replicate (MAX_HANDLES + 2) 0).set 0 254).set 0 255,
    ⟨[MAX_HANDLES + 1, 0], 1, 1⟩, 1⟩

/-! Buffer-cell access kit: `bget l i` is the value of cell `i` (0 for a
cell outside the allocation; the proofs below only ever use it in range). -/

/-- Read one machine word of a buffer. -/
def bget (l : List Nat) (i : Nat) : Nat := l.getD i 0

theorem bget_append_left {l r : List Nat} {i : Nat} (h : i < l.length) :
    bget (l ++ r) i = bget l i := by
  simp [bget, List.getD_eq_getElem?_getD, List.getElem?_append, h]

theorem bget_append_right {l r : List Nat} {i : Nat} (h : l.length ≤ i) :
    bget (l ++ r) i = bget r (i - l.length) := by
  simp [bget, List.getD_eq_getElem?_getD, List.getElem?_append_right h]

theorem bget_set_self {l : List Nat} {i : Nat} {x : Nat} (h : i < l.length) :
    bget (l.set i x) i = x := by
  simp [bget, List.getD_eq_getElem?_getD, List.getElem?_set_self h]

theorem bget_set_ne {l : List Nat} {i j : Nat} {x : Nat} (h : i ≠ j) :
    bget (l.set i x) j = bget l j := by
  simp [bget, List.getD_eq_getElem?_getD, List.getElem?_set_ne h]

theorem bget_replicate0 {n i : Nat} : bget (List.replicate n 0) i = 0 := by
  simp only [bget, List.getD_eq_getElem?_getD, List.getElem?_replicate]
  by_cases h : i < n <;> simp [h]

theorem bget_take {l : List Nat} {n i : Nat} (h : i < n) :
    bget (l.take n) i = bget l i := by
  simp [bget, List.getD_eq_getElem?_getD, List.getElem?_take, h]

theorem length_writeSeg {l seg : List Nat} {pos : Nat}
    (h : pos + seg.length ≤ l.length) :
    (writeSeg l pos seg).length = l.length := by
  simp [writeSeg]
  omega

theorem bget_writeSeg_lt {l seg : List Nat} {pos i : Nat}
    (hpos : pos ≤ l.length) (h : i < pos) :
    bget (writeSeg l pos seg) i = bget l i := by
  unfold writeSeg
  rw [bget_append_left, bget_append_left, bget_take h]
  · simp; omega
  · simp
    omega

theorem bget_writeSeg_mid {l seg : List Nat} {pos i : Nat}
    (hpos : pos ≤ l.length) (h1 : pos ≤ i) (h2 : i < pos + seg.length) :
    bget (writeSeg l pos seg) i = bget seg (i - pos) := by
  unfold writeSeg
  rw [List.append_assoc, bget_append_right, bget_append_left]
  · congr 1
    simp
    omega
  · simp
    omega
  · simp
    omega

/-- Membership in a range-mapped list, specialised to `toList`. -/
theorem toList_eq_map (fl : FreeList) :
    fl.toList =
      (List.range fl.size).map fun k => bget fl.buffer ((fl.head + k) % fl.capacity) :=
  rfl

theorem toList_length (fl : FreeList) : fl.toList.length = fl.size := by
  simp [FreeList.toList]

/-- Two-case description of `a % n` for `a < 2n`. -/
theorem mod_two_case {a n : Nat} (h : a < 2 * n) (_h0 : 0 < n) :
    a % n = if a < n then a else a - n := by
  by_cases hc : a < n
  · simp [hc, Nat.mod_eq_of_lt hc]
  · simp [hc]
    rw [Nat.mod_eq_sub_mod (by omega), Nat.mod_eq_of_lt (by omega)]

theorem size_le_capacity {fl : FreeList} (hwf : wfFL fl) :
    fl.size ≤ fl.capacity := by
  obtain ⟨h1, h2⟩ := hwf
  unfold FreeList.size
  by_cases hc : fl.tail < fl.head <;> simp [hc] <;> omega

theorem size_zero_iff {fl : FreeList} (hwf : wfFL fl) :
    fl.size = 0 ↔ fl.head = fl.tail := by
  obtain ⟨h1, h2⟩ := hwf
  unfold FreeList.size
  by_cases hc : fl.tail < fl.head <;> simp [hc] <;> omega

theorem emptyq_iff (fl : FreeList) : fl.emptyq = true ↔ fl.head = fl.tail := by
  simp [FreeList.emptyq]

/-- Specification of the wrapped-full grow branch: capacity doubles, the
cursors keep the original head, the write cursor is recomputed as
`head + old_capacity - 1`, the wrapped front segment is copied right after
the original end, and the logical FIFO content is unchanged. -/
theorem growWrapped_spec (fl : FreeList) (hwf : wfFL fl) (hh : 1 ≤ fl.head)
    (ht : fl.tail = fl.head - 1) :
    (fl.growWrapped).buffer.length = 2 * fl.capacity ∧
    (fl.growWrapped).head = fl.head ∧
    (fl.growWrapped).tail = fl.head + fl.capacity - 1 ∧
    (∀ k, k < fl.tail →
      bget (fl.growWrapped).buffer (fl.capacity + k) = bget fl.buffer k) ∧
    fl.size = fl.capacity - 1 ∧
    (fl.growWrapped).size = fl.size ∧
    (fl.growWrapped).toList = fl.toList := by
  obtain ⟨hwf1, hwf2⟩ := hwf
  have hcap0 : 0 < fl.capacity := by omega
  have htl : fl.tail < fl.head := by omega
  have hseg : (fl.buffer.take fl.tail).length = fl.tail := by
    simp only [List.length_take]
    simp only [FreeList.capacity] at hwf1 hwf2
    omega
  have hbig : (fl.buffer ++ List.replicate fl.capacity 0).length =
      2 * fl.capacity := by
    simp only [List.length_append, List.length_replicate, FreeList.capacity]
    omega
  have hlen : (fl.growWrapped).buffer.length = 2 * fl.capacity := by
    unfold FreeList.growWrapped
    rw [length_writeSeg (by rw [hbig, hseg]; omega), hbig]
  have hhead : (fl.growWrapped).head = fl.head := rfl
  have htail : (fl.growWrapped).tail = fl.head + fl.capacity - 1 := rfl
  have hcopy : ∀ k, k < fl.tail →
      bget (fl.growWrapped).buffer (fl.capacity + k) = bget fl.buffer k := by
    intro k hk
    unfold FreeList.growWrapped
    rw [bget_writeSeg_mid (by rw [hbig]; omega) (by omega)
      (by rw [hseg]; omega)]
    rw [Nat.add_sub_cancel_left, bget_take hk]
  have hszold : fl.size = fl.capacity - 1 := by
    unfold FreeList.size
    rw [if_pos htl]
    omega
  have hc2 : (fl.growWrapped).capacity = 2 * fl.capacity := hlen
  have hsznew : (fl.growWrapped).size = fl.size := by
    unfold FreeList.size
    rw [hhead, htail, hc2, if_neg (by omega), if_pos htl]
    omega
  refine ⟨hlen, hhead, htail, hcopy, hszold, hsznew, ?_⟩
  rw [toList_eq_map, toList_eq_map, hsznew]
  apply List.map_congr_left
  intro k hk
  rw [List.mem_range, hszold] at hk
  rw [hhead, hc2, Nat.mod_eq_of_lt (by omega)]
  have hmod : (fl.head + k) % fl.capacity =
      if fl.head + k < fl.capacity then fl.head + k
      else fl.head + k - fl.capacity := mod_two_case (by omega) hcap0
  by_cases hcase : fl.head + k < fl.capacity
  · rw [hmod, if_pos hcase]
    unfold FreeList.growWrapped
    rw [bget_writeSeg_lt (by rw [hbig]; omega) hcase]
    rw [bget_append_left (by simpa [FreeList.capacity] using hcase)]
  · rw [hmod, if_neg hcase]
    have hk2 : fl.head + k - fl.capacity < fl.tail := by omega
    have hcp := hcopy (fl.head + k - fl.capacity) hk2
    rw [show fl.capacity + (fl.head + k - fl.capacity) = fl.head + k by omega]
      at hcp
    exact hcp

/-- Specification of the write half of `push`: provided the buffer is not
in a state the write would corrupt (a full buffer with `head < 2`, or a
wrapped buffer with only the reserved cell left), the write appends the
index to the FIFO content. -/
theorem pushWrite_toList (b : List Nat) (hd t : Nat) :
    FreeList.toList ⟨b, hd, t⟩ =
      (List.range (FreeList.size ⟨b, hd, t⟩)).map
        fun k => bget b ((hd + k) % b.length) :=
  rfl

theorem size_mk (b : List Nat) (hd t : Nat) :
    FreeList.size ⟨b, hd, t⟩ = if t < hd then t + b.length - hd else t - hd :=
  rfl

theorem pushWrite_spec (fl1 : FreeList) (x : Nat) (hwf : wfFL fl1)
    (h1 : fl1.tail = fl1.capacity → 2 ≤ fl1.head)
    (h2 : fl1.tail < fl1.head → fl1.tail + 1 < fl1.head) :
    wfFL (fl1.pushWrite x) ∧ (fl1.pushWrite x).head = fl1.head ∧
    (fl1.pushWrite x).capacity = fl1.capacity ∧
    (fl1.pushWrite x).toList = fl1.toList ++ [x] := by
  obtain ⟨hwf1, hwf2⟩ := hwf
  simp only [FreeList.capacity] at hwf1 hwf2 h1 h2
  have hcap0 : 0 < fl1.buffer.length := by omega
  have hold : fl1.toList =
      (List.range fl1.size).map
        fun k => bget fl1.buffer ((fl1.head + k) % fl1.buffer.length) := rfl
  by_cases hT : fl1.tail = fl1.buffer.length
  · -- the write cursor wraps from capacity to 0
    have hhd : 2 ≤ fl1.head := h1 hT
    have hfl : fl1.pushWrite x = ⟨fl1.buffer.set 0 x, fl1.head, 1⟩ := by
      unfold FreeList.pushWrite
      rw [if_pos (by simpa [FreeList.capacity] using hT)]
    have hszold : fl1.size = fl1.buffer.length - fl1.head := by
      unfold FreeList.size FreeList.capacity
      rw [if_neg (by omega)]
      omega
    have hsz : FreeList.size ⟨fl1.buffer.set 0 x, fl1.head, 1⟩ =
        fl1.size + 1 := by
      rw [size_mk, List.length_set, if_pos (by omega : 1 < fl1.head), hszold]
      omega
    refine ⟨?_, by rw [hfl], ?_, ?_⟩
    · rw [hfl]
      constructor
      · simpa [FreeList.capacity] using hwf1
      · simp only [FreeList.capacity, List.length_set]
        omega
    · rw [hfl]
      simp [FreeList.capacity]
    · rw [hfl, pushWrite_toList, hsz, List.range_succ, List.map_append,
        List.length_set, hold]
      congr 1
      · apply List.map_congr_left
        intro k hk
        rw [List.mem_range, hszold] at hk
        have hlt : fl1.head + k < fl1.buffer.length := by omega
        rw [Nat.mod_eq_of_lt hlt, bget_set_ne (by omega)]
      · simp only [List.map_cons, List.map_nil]
        congr 1
        rw [hszold,
          show fl1.head + (fl1.buffer.length - fl1.head) = fl1.buffer.length
            by omega]
        rw [Nat.mod_self]
        exact bget_set_self hcap0
  · -- the write happens at the current tail cell
    have htlt : fl1.tail < fl1.buffer.length := by omega
    have hfl : fl1.pushWrite x = ⟨fl1.buffer.set fl1.tail x, fl1.head,
        fl1.tail + 1⟩ := by
      unfold FreeList.pushWrite
      rw [if_neg (by simpa [FreeList.capacity] using hT)]
    have hwf' : wfFL (fl1.pushWrite x) := by
      rw [hfl]
      constructor
      · simpa [FreeList.capacity] using hwf1
      · simp only [FreeList.capacity, List.length_set]
        omega
    have hcap' : (fl1.pushWrite x).capacity = fl1.capacity := by
      rw [hfl]
      simp [FreeList.capacity]
    by_cases hw : fl1.tail < fl1.head
    · -- wrapped content, room left before head
      have hroom : fl1.tail + 1 < fl1.head := h2 hw
      have hszold : fl1.size = fl1.tail + fl1.buffer.length - fl1.head := by
        unfold FreeList.size FreeList.capacity
        rw [if_pos hw]
      have hsz : FreeList.size ⟨fl1.buffer.set fl1.tail x, fl1.head,
          fl1.tail + 1⟩ = fl1.size + 1 := by
        rw [size_mk, List.length_set, if_pos hroom, hszold]
        omega
      refine ⟨hwf', by rw [hfl], hcap', ?_⟩
      rw [hfl, pushWrite_toList, hsz, List.range_succ, List.map_append,
        List.length_set, hold]
      congr 1
      · apply List.map_congr_left
        intro k hk
        rw [List.mem_range, hszold] at hk
        have hmod : (fl1.head + k) % fl1.buffer.length =
            if fl1.head + k < fl1.buffer.length then fl1.head + k
            else fl1.head + k - fl1.buffer.length :=
          mod_two_case (by omega) hcap0
        rw [hmod]
        by_cases hcase : fl1.head + k < fl1.buffer.length
        · rw [if_pos hcase, bget_set_ne (by omega)]
        · rw [if_neg hcase, bget_set_ne (by omega)]
      · simp only [List.map_cons, List.map_nil]
        congr 1
        rw [hszold,
          show fl1.head + (fl1.tail + fl1.buffer.length - fl1.head) =
            fl1.tail + fl1.buffer.length by omega]
        rw [mod_two_case (by omega) hcap0, if_neg (by omega),
          Nat.add_sub_cancel]
        exact bget_set_self htlt
    · -- contiguous content from head to tail
      have hle : fl1.head ≤ fl1.tail := by omega
      have hszold : fl1.size = fl1.tail - fl1.head := by
        unfold FreeList.size FreeList.capacity
        rw [if_neg hw]
      have hsz : FreeList.size ⟨fl1.buffer.set fl1.tail x, fl1.head,
          fl1.tail + 1⟩ = fl1.size + 1 := by
        rw [size_mk, List.length_set, if_neg (by omega), hszold]
        omega
      refine ⟨hwf', by rw [hfl], hcap', ?_⟩
      rw [hfl, pushWrite_toList, hsz, List.range_succ, List.map_append,
        List.length_set, hold]
      congr 1
      · apply List.map_congr_left
        intro k hk
        rw [List.mem_range, hszold] at hk
        have hlt : fl1.head + k < fl1.buffer.length := by omega
        rw [Nat.mod_eq_of_lt hlt, bget_set_ne (by omega)]
      · simp only [List.map_cons, List.map_nil]
        congr 1
        rw [hszold,
          show fl1.head + (fl1.tail - fl1.head) = fl1.tail by omega]
        rw [Nat.mod_eq_of_lt htlt]
        exact bget_set_self htlt

/-- Specification of the grow half of `push`: outside the missed-full
corner state (`head = 1`, `tail = capacity`) it preserves the FIFO content
and leaves the buffer in a state the write half appends to correctly. -/
theorem growIfNeeded_spec (fl : FreeList) (hwf : wfFL fl)
    (hnc : ¬(fl.head = 1 ∧ fl.tail = fl.capacity)) :
    wfFL fl.growIfNeeded ∧ fl.growIfNeeded.head = fl.head ∧
    fl.capacity ≤ fl.growIfNeeded.capacity ∧
    fl.growIfNeeded.toList = fl.toList ∧
    (fl.growIfNeeded.tail = fl.growIfNeeded.capacity →
      2 ≤ fl.growIfNeeded.head) ∧
    (fl.growIfNeeded.tail < fl.growIfNeeded.head →
      fl.growIfNeeded.tail + 1 < fl.growIfNeeded.head) := by
  obtain ⟨hwf1, hwf2⟩ := hwf
  have hcap0 : 0 < fl.capacity := by omega
  by_cases h0 : fl.head = 0
  · by_cases hF : fl.tail = fl.capacity
    · -- head = 0, tail = capacity: plain doubling realloc
      have hfl : fl.growIfNeeded =
          ⟨fl.buffer ++ List.replicate fl.capacity 0, fl.head, fl.tail⟩ := by
        unfold FreeList.growIfNeeded
        rw [if_pos h0, if_pos hF]
      have hlen : (fl.buffer ++ List.replicate fl.capacity 0).length =
          2 * fl.capacity := by
        simp only [List.length_append, List.length_replicate,
          FreeList.capacity]
        omega
      have hnw : ¬ fl.tail < fl.head := by omega
      have hks : fl.size = fl.capacity := by
        unfold FreeList.size
        rw [if_neg hnw]
        omega
      have hszmk : FreeList.size
          ⟨fl.buffer ++ List.replicate fl.capacity 0, fl.head, fl.tail⟩ =
          fl.capacity := by
        rw [size_mk, if_neg hnw]
        omega
      refine ⟨?_, by rw [hfl], ?_, ?_, ?_, ?_⟩
      · rw [hfl]
        refine ⟨?_, ?_⟩
        · show fl.head < (fl.buffer ++ List.replicate fl.capacity 0).length
          rw [hlen]
          omega
        · show fl.tail ≤ (fl.buffer ++ List.replicate fl.capacity 0).length
          rw [hlen]
          omega
      · rw [hfl]
        show fl.capacity ≤ (fl.buffer ++ List.replicate fl.capacity 0).length
        rw [hlen]
        omega
      · rw [hfl, pushWrite_toList, hszmk, toList_eq_map, hks]
        apply List.map_congr_left
        intro k hk
        rw [List.mem_range] at hk
        rw [hlen, h0]
        rw [Nat.mod_eq_of_lt (show 0 + k < 2 * fl.capacity by omega),
          Nat.mod_eq_of_lt (show 0 + k < fl.capacity by omega)]
        exact bget_append_left (by simpa [FreeList.capacity] using hk)
      · rw [hfl]
        intro hcon
        have : fl.tail = (fl.buffer ++ List.replicate fl.capacity 0).length :=
          hcon
        rw [hlen] at this
        omega
      · rw [hfl]
        intro hcon
        have : fl.tail < fl.head := hcon
        omega
    · -- head = 0, room left: no grow
      have hfl : fl.growIfNeeded = fl := by
        unfold FreeList.growIfNeeded
        rw [if_pos h0, if_neg hF]
      rw [hfl]
      exact ⟨⟨hwf1, hwf2⟩, rfl, Nat.le_refl _, rfl,
        fun hcon => absurd hcon hF, fun hcon => by omega⟩
  · by_cases hW : fl.tail = fl.head - 1
    · -- wrapped full: relocation branch
      have hgw := growWrapped_spec fl ⟨hwf1, hwf2⟩ (by omega) hW
      obtain ⟨glen, ghead, gtail, _, gszold, gsznew, gtoList⟩ := hgw
      have hfl : fl.growIfNeeded = fl.growWrapped := by
        unfold FreeList.growIfNeeded
        rw [if_neg h0, if_pos hW]
      rw [hfl]
      have gcap : fl.growWrapped.capacity = 2 * fl.capacity := glen
      refine ⟨⟨?_, ?_⟩, ghead, by omega, gtoList, ?_, ?_⟩
      · rw [ghead, gcap]
        omega
      · rw [gtail, gcap]
        omega
      · intro hcon
        rw [gtail, gcap] at hcon
        omega
      · intro hcon
        rw [gtail, ghead] at hcon
        omega
    · -- head > 0, not wrapped-full: no grow
      have hfl : fl.growIfNeeded = fl := by
        unfold FreeList.growIfNeeded
        rw [if_neg h0, if_neg hW]
      rw [hfl]
      refine ⟨⟨hwf1, hwf2⟩, rfl, Nat.le_refl _, rfl, ?_, ?_⟩
      · intro hcon
        rcases Nat.lt_or_ge fl.head 2 with hh | hh
        · exact absurd ⟨by omega, hcon⟩ hnc
        · exact hh
      · intro hcon
        omega

/-- Full specification of `FreeList::push` outside the missed-full corner
state: the index is appended to the FIFO content, the head cursor is
unchanged and the capacity does not shrink. -/
theorem push_spec (fl : FreeList) (x : Nat) (hwf : wfFL fl)
    (hnc : ¬(fl.head = 1 ∧ fl.tail = fl.capacity)) :
    wfFL (fl.push x) ∧ (fl.push x).head = fl.head ∧
    fl.capacity ≤ (fl.push x).capacity ∧
    (fl.push x).toList = fl.toList ++ [x] := by
  obtain ⟨gwf, ghead, gcap, gtoList, g1, g2⟩ := growIfNeeded_spec fl hwf hnc
  obtain ⟨pwf, phead, pcap, ptoList⟩ :=
    pushWrite_spec fl.growIfNeeded x gwf g1 g2
  refine ⟨pwf, ?_, ?_, ?_⟩
  · show ((fl.growIfNeeded).pushWrite x).head = fl.head
    rw [phead, ghead]
  · show fl.capacity ≤ ((fl.growIfNeeded).pushWrite x).capacity
    omega
  · show ((fl.growIfNeeded).pushWrite x).toList = fl.toList ++ [x]
    rw [ptoList, gtoList]

/-- The cursors stay in range after any `push`, including the corrupting
corner case. -/
theorem push_wf (fl : FreeList) (x : Nat) (hwf : wfFL fl) :
    wfFL (fl.push x) ∧ (fl.push x).head = fl.head ∧
    fl.capacity ≤ (fl.push x).capacity := by
  by_cases hnc : fl.head = 1 ∧ fl.tail = fl.capacity
  · -- the missed-full corner: the write lands at cell 0 and tail becomes 1
    obtain ⟨hh, ht⟩ := hnc
    obtain ⟨hwf1, hwf2⟩ := hwf
    have hgrow : fl.growIfNeeded = fl := by
      unfold FreeList.growIfNeeded
      have hc0 : ¬ fl.head = 0 := by omega
      have hcw : ¬ fl.tail = fl.head - 1 := by
        rw [ht, hh]
        omega
      rw [if_neg hc0, if_neg hcw]
    have hfl : fl.push x = ⟨fl.buffer.set 0 x, fl.head, 1⟩ := by
      unfold FreeList.push
      rw [hgrow]
      unfold FreeList.pushWrite
      rw [if_pos ht]
    rw [hfl]
    refine ⟨⟨?_, ?_⟩, rfl, ?_⟩
    · show fl.head < (fl.buffer.set 0 x).length
      simpa [FreeList.capacity] using hwf1
    · show 1 ≤ (fl.buffer.set 0 x).length
      simp only [List.length_set]
      simp only [FreeList.capacity] at hwf1
      omega
    · show fl.capacity ≤ (fl.buffer.set 0 x).length
      simp [FreeList.capacity]
  · obtain ⟨pwf, phead, pcap, _⟩ := push_spec fl x hwf hnc
    exact ⟨pwf, phead, pcap⟩

/-- Anything in the FIFO content after a `push` was there before or is the
pushed index (this also holds across the corrupting corner case, where the
content collapses to empty). -/
theorem push_mem (fl : FreeList) (x z : Nat) (hwf : wfFL fl)
    (hz : z ∈ (fl.push x).toList) : z ∈ fl.toList ∨ z = x := by
  by_cases hnc : fl.head = 1 ∧ fl.tail = fl.capacity
  · obtain ⟨hh, ht⟩ := hnc
    obtain ⟨hwf1, hwf2⟩ := hwf
    have hgrow : fl.growIfNeeded = fl := by
      unfold FreeList.growIfNeeded
      have hc0 : ¬ fl.head = 0 := by omega
      have hcw : ¬ fl.tail = fl.head - 1 := by
        rw [ht, hh]
        omega
      rw [if_neg hc0, if_neg hcw]
    have hfl : fl.push x = ⟨fl.buffer.set 0 x, fl.head, 1⟩ := by
      unfold FreeList.push
      rw [hgrow]
      unfold FreeList.pushWrite
      rw [if_pos ht]
    rw [hfl] at hz
    have : FreeList.size ⟨fl.buffer.set 0 x, fl.head, 1⟩ = 0 := by
      rw [size_mk, hh]
      simp
    rw [pushWrite_toList, this] at hz
    simp at hz
  · obtain ⟨_, _, _, ptoList⟩ := push_spec fl x hwf hnc
    rw [ptoList, List.mem_append] at hz
    rcases hz with hz | hz
    · exact Or.inl hz
    · simp at hz
      exact Or.inr hz

/-- Specification of `FreeList::pop` on a non-empty list: it removes and
returns the head of the FIFO content. -/
theorem pop_spec (fl : FreeList) (hwf : wfFL fl) (hne : fl.head ≠ fl.tail) :
    wfFL (fl.pop).2 ∧ (fl.pop).2.capacity = fl.capacity ∧
    fl.toList = (fl.pop).1 :: (fl.pop).2.toList := by
  obtain ⟨hwf1, hwf2⟩ := hwf
  have hcap0 : 0 < fl.capacity := by omega
  have hold : fl.toList =
      (List.range fl.size).map
        fun k => bget fl.buffer ((fl.head + k) % fl.capacity) := rfl
  by_cases hr : fl.head + 1 ≥ fl.capacity
  · -- the read cursor wraps back to 0
    have hpop : fl.pop = (bget fl.buffer fl.head,
        ⟨fl.buffer, 0, if fl.tail ≥ fl.capacity then 0 else fl.tail⟩) := by
      unfold FreeList.pop
      rw [if_pos hr]
      rfl
    by_cases htc : fl.tail ≥ fl.capacity
    · -- tail is also at capacity and is reset with the head
      have htc' : fl.tail = fl.capacity := by omega
      have hpop2 : fl.pop = (bget fl.buffer fl.head, ⟨fl.buffer, 0, 0⟩) := by
        rw [hpop, if_pos htc]
      have hsz : fl.size = 1 := by
        unfold FreeList.size
        rw [if_neg (by omega)]
        omega
      rw [hpop2]
      refine ⟨⟨show (0:Nat) < fl.capacity from hcap0,
        show (0:Nat) ≤ fl.capacity by omega⟩, rfl, ?_⟩
      rw [hold, hsz]
      have hsz' : FreeList.size ⟨fl.buffer, 0, 0⟩ = 0 := by
        rw [size_mk]
        simp
      show _ = _ :: FreeList.toList ⟨fl.buffer, 0, 0⟩
      rw [pushWrite_toList, hsz']
      simp only [List.range_zero, List.map_nil]
      rw [show List.range 1 = [0] from rfl]
      simp only [List.map_cons, List.map_nil]
      congr 1
      rw [Nat.add_zero, Nat.mod_eq_of_lt (by omega)]
    · -- only the head wraps; tail < capacity, so the content is wrapped
      have htc' : fl.tail < fl.capacity := by omega
      have hw : fl.tail < fl.head := by omega
      have hpop2 : fl.pop = (bget fl.buffer fl.head,
          ⟨fl.buffer, 0, fl.tail⟩) := by
        rw [hpop, if_neg htc]
      have hsz : fl.size = fl.tail + 1 := by
        unfold FreeList.size
        rw [if_pos hw]
        omega
      have hsz' : FreeList.size ⟨fl.buffer, 0, fl.tail⟩ = fl.tail := by
        rw [size_mk]
        simp
      rw [hpop2]
      refine ⟨⟨show (0:Nat) < fl.capacity from hcap0,
        show fl.tail ≤ fl.capacity by omega⟩, rfl, ?_⟩
      rw [hold, hsz]
      show _ = _ :: FreeList.toList ⟨fl.buffer, 0, fl.tail⟩
      rw [pushWrite_toList, hsz']
      rw [List.range_succ_eq_map, List.map_cons, List.map_map]
      congr 1
      · rw [Nat.add_zero, Nat.mod_eq_of_lt (by omega)]
      · apply List.map_congr_left
        intro k hk
        rw [List.mem_range] at hk
        simp only [Function.comp_apply]
        have hbl : fl.capacity = fl.buffer.length := rfl
        rw [show fl.head + (k + 1) = fl.capacity + k by omega,
          Nat.add_mod_left,
          Nat.mod_eq_of_lt (show k < fl.capacity by omega),
          Nat.mod_eq_of_lt (show 0 + k < fl.buffer.length by omega),
          Nat.zero_add]
  · -- the read cursor advances by one
    have hpop : fl.pop = (bget fl.buffer fl.head,
        ⟨fl.buffer, fl.head + 1, fl.tail⟩) := by
      unfold FreeList.pop
      rw [if_neg hr]
      rfl
    have hbl : fl.capacity = fl.buffer.length := rfl
    have hsz : fl.size = FreeList.size ⟨fl.buffer, fl.head + 1, fl.tail⟩ + 1 := by
      show (if fl.tail < fl.head then fl.tail + fl.capacity - fl.head
          else fl.tail - fl.head) =
        (if fl.tail < fl.head + 1 then fl.tail + fl.buffer.length - (fl.head + 1)
          else fl.tail - (fl.head + 1)) + 1
      by_cases hw : fl.tail < fl.head
      · rw [if_pos hw, if_pos (show fl.tail < fl.head + 1 by omega)]
        omega
      · rw [if_neg hw, if_neg (show ¬ fl.tail < fl.head + 1 by omega)]
        omega
    rw [hpop]
    refine ⟨⟨show fl.head + 1 < fl.capacity by omega,
      show fl.tail ≤ fl.capacity by omega⟩, rfl, ?_⟩
    rw [hold, hsz]
    show _ = _ :: FreeList.toList ⟨fl.buffer, fl.head + 1, fl.tail⟩
    rw [pushWrite_toList]
    rw [List.range_succ_eq_map, List.map_cons, List.map_map]
    congr 1
    · rw [Nat.add_zero, Nat.mod_eq_of_lt (by omega)]
    · apply List.map_congr_left
      intro k hk
      simp only [Function.comp_apply]
      rw [show fl.head + (k + 1) = fl.head + 1 + k by omega]
      rfl

/-- `pushAll` only moves cursors and grows the buffer. -/
theorem pushAll_wf (fl : FreeList) (xs : List Nat) (hwf : wfFL fl) :
    wfFL (pushAll fl xs) ∧ (pushAll fl xs).head = fl.head ∧
    fl.capacity ≤ (pushAll fl xs).capacity := by
  induction xs generalizing fl with
  | nil => exact ⟨hwf, rfl, Nat.le_refl _⟩
  | cons x xs ih =>
    obtain ⟨pwf, phead, pcap⟩ := push_wf fl x hwf
    obtain ⟨awf, ahead, acap⟩ := ih (fl.push x) pwf
    refine ⟨awf, ?_, ?_⟩
    · show (pushAll (fl.push x) xs).head = fl.head
      rw [ahead, phead]
    · show fl.capacity ≤ (pushAll (fl.push x) xs).capacity
      omega

/-- `pushAll` appends its indices to the FIFO content, provided the head
cursor is not parked at the missed-full corner position 1. -/
theorem pushAll_spec (fl : FreeList) (xs : List Nat) (hwf : wfFL fl)
    (hh : fl.head ≠ 1) :
    wfFL (pushAll fl xs) ∧ (pushAll fl xs).head = fl.head ∧
    fl.capacity ≤ (pushAll fl xs).capacity ∧
    (pushAll fl xs).toList = fl.toList ++ xs := by
  induction xs generalizing fl with
  | nil => exact ⟨hwf, rfl, Nat.le_refl _, by simp [pushAll]⟩
  | cons x xs ih =>
    obtain ⟨pwf, phead, pcap, ptoList⟩ :=
      push_spec fl x hwf (fun hcon => hh hcon.1)
    obtain ⟨awf, ahead, acap, atoList⟩ := ih (fl.push x) pwf (by rw [phead]; exact hh)
    refine ⟨awf, ?_, ?_, ?_⟩
    · show (pushAll (fl.push x) xs).head = fl.head
      rw [ahead, phead]
    · show fl.capacity ≤ (pushAll (fl.push x) xs).capacity
      omega
    · show (pushAll (fl.push x) xs).toList = fl.toList ++ x :: xs
      rw [atoList, ptoList]
      simp

/-- Every index in the FIFO content after a `pushAll` was present before
or is among the pushed indices. -/
theorem pushAll_mem (fl : FreeList) (xs : List Nat) (z : Nat) (hwf : wfFL fl)
    (hz : z ∈ (pushAll fl xs).toList) : z ∈ fl.toList ∨ z ∈ xs := by
  induction xs generalizing fl with
  | nil => exact Or.inl hz
  | cons x xs ih =>
    obtain ⟨pwf, _, _⟩ := push_wf fl x hwf
    rcases ih (fl.push x) pwf hz with hz' | hz'
    · rcases push_mem fl x z hwf hz' with hz'' | hz''
      · exact Or.inl hz''
      · exact Or.inr (by simp [hz''])
    · exact Or.inr (by simp [hz'])

/-! Generic `get?` facts used for the two `SlotMap` arrays. -/

theorem get?_set_self {α : Type} (l : List α) (i : Nat) (x : α)
    (h : i < l.length) : (l.set i x).get? i = some x := by
  rw [List.get?_eq_getElem?]
  exact List.getElem?_set_self h

theorem get?_set_ne {α : Type} (l : List α) (i j : Nat) (x : α)
    (h : i ≠ j) : (l.set i x).get? j = l.get? j := by
  rw [List.get?_eq_getElem?, List.get?_eq_getElem?]
  exact List.getElem?_set_ne h

theorem get?_append_left {α : Type} (l r : List α) (i : Nat)
    (h : i < l.length) : (l ++ r).get? i = l.get? i := by
  rw [List.get?_eq_getElem?, List.get?_eq_getElem?, List.getElem?_append]
  rw [if_pos h]

theorem get?_lt_length {α : Type} {l : List α} {i : Nat} {x : α}
    (h : l.get? i = some x) : i < l.length := by
  rw [List.get?_eq_getElem?] at h
  rcases List.getElem?_eq_some.mp h with ⟨hlt, _⟩
  exact hlt

theorem get?_replicate {α : Type} (x : α) (n i : Nat) (h : i < n) :
    (List.replicate n x).get? i = some x := by
  rw [List.get?_eq_getElem?, List.getElem?_replicate, if_pos h]

/-- Decoded form of the structural validity bit test. -/
theorem isValid_iff (h : Handle) :
    h.isValid = true ↔
      (h.index < MAX_HANDLES ∧ h.generation < MAX_GENERATIONS) := by
  simp [Handle.isValid]

/-- The freshly constructed map: well-formed, free list holding exactly
`0..C-1` oldest-first with the head cursor at 0. -/
theorem init_spec (α : Type) (C M : Nat) :
    (SlotMap.init α C M).wf ∧
    (SlotMap.init α C M).freelist.head = 0 ∧
    (SlotMap.init α C M).freelist.toList = List.range C ∧
    C ≤ (SlotMap.init α C M).freelist.capacity := by
  have hwf0 : wfFL (FreeList.init 1024) := by
    constructor <;> simp [FreeList.init, FreeList.capacity]
  have h0 : (FreeList.init 1024).toList = [] := by
    have : (FreeList.init 1024).size = 0 := rfl
    rw [toList_eq_map, this]
    simp
  obtain ⟨awf, ahead, acap, atoList⟩ :=
    pushAll_spec (FreeList.init 1024) (List.range C) hwf0 (by
      simp [FreeList.init])
  rw [h0, List.nil_append] at atoList
  have hsize : (SlotMap.init α C M).freelist.size = C := by
    have := toList_length (SlotMap.init α C M).freelist
    rw [show (SlotMap.init α C M).freelist =
      pushAll (FreeList.init 1024) (List.range C) from rfl, atoList] at this
    simpa using this.symm
  refine ⟨⟨?_, ?_, awf⟩, by simpa [SlotMap.init] using ahead,
    by simpa [SlotMap.init] using atoList, ?_⟩
  · simp [SlotMap.init]
  · simp [SlotMap.init]
  · have := size_le_capacity awf
    rw [show pushAll (FreeList.init 1024) (List.range C) =
      (SlotMap.init α C M).freelist from rfl] at this awf
    omega

/-- Reading a cell of the zero-filled extension appended by a `realloc`
plus `memset`. -/
theorem get?_append_replicate {α : Type} (l : List α) (m i : Nat) (x : α)
    (h1 : l.length ≤ i) (h2 : i < l.length + m) :
    (l ++ List.replicate m x).get? i = some x := by
  rw [List.get?_eq_getElem?, List.getElem?_append_right h1,
    List.getElem?_replicate, if_pos (by omega)]

/-- Facts about the shared grow-check prefix of `insert` and `emplace`. -/
theorem preAlloc_facts {α : Type} (s s1 : SlotMap α) (hwf : s.wf)
    (hpre : s.preAlloc = some s1) :
    s1.wf ∧ s.handle_count ≤ s1.handle_count ∧
    (s1.handle_count = s.handle_count ∨ s1.handle_count ≤ MAX_HANDLES) ∧
    s1.minimum_queue_handles = s.minimum_queue_handles ∧
    s1.dead_indices = s.dead_indices ∧
    (∀ i, i < s.handle_count → s1.generations.get? i = s.generations.get? i) ∧
    (∀ i, s.handle_count ≤ i → i < s1.handle_count →
      s1.generations.get? i = some 0) ∧
    (∀ z, z ∈ s1.freelist.toList →
      z ∈ s.freelist.toList ∨ s.handle_count ≤ z) := by
  obtain ⟨hlen1, hlen2, hflwf⟩ := hwf
  unfold SlotMap.preAlloc at hpre
  by_cases hneed : s.needNewHandles
  · rw [if_pos hneed] at hpre
    unfold SlotMap.resize at hpre
    by_cases hcap : s.handle_count * 2 ≤ MAX_HANDLES
    · rw [if_pos hcap] at hpre
      obtain rfl := (Option.some_inj).mp hpre.symm
      obtain ⟨awf, _, _⟩ :=
        pushAll_wf s.freelist
          (List.range' s.handle_count (s.handle_count * 2 - s.handle_count))
          hflwf
      refine ⟨⟨?_, ?_, awf⟩, by simp; omega, Or.inr hcap, rfl, rfl, ?_, ?_, ?_⟩
      · simp only [List.length_append, List.length_replicate]
        omega
      · simp only [List.length_append, List.length_replicate]
        omega
      · intro i hi
        exact get?_append_left _ _ i (by omega)
      · intro i h1 h2
        have h2a : i < s.handle_count * 2 := h2
        exact get?_append_replicate s.generations _ i 0 (by omega) (by omega)
      · intro z hz
        rcases pushAll_mem s.freelist _ z hflwf hz with hz' | hz'
        · exact Or.inl hz'
        · right
          have := List.mem_range'_1.mp hz'
          omega
    · rw [if_neg hcap] at hpre
      cases hpre
  · rw [if_neg hneed] at hpre
    obtain rfl := (Option.some_inj).mp hpre.symm
    exact ⟨⟨hlen1, hlen2, hflwf⟩, Nat.le_refl _, Or.inl rfl, rfl, rfl,
      fun i _ => rfl, fun i h1 h2 => absurd h1 (by omega),
      fun z hz => Or.inl hz⟩

/-- Characterisation of a successful `get`: structurally valid handle, in
range, generation match, live cell. -/
theorem get_eq_live {α : Type} (s : SlotMap α) (h : Handle) (v : α)
    (hv : h.isValid = true) (hi : ¬ h.index > s.handle_count)
    (hg : s.generations.get? h.index = some h.generation)
    (hd : s.data.get? h.index = some (some v)) :
    s.get h = GetRes.live v := by
  unfold SlotMap.get
  rw [if_neg (by simp [hv, hi]), hg]
  simp only []
  rw [if_pos trivial, hd]

/-- Facts about a successful `insert`: the returned handle addresses a
live slot holding the inserted value at the current slot generation, the
generations array is untouched, and the popped index came from the free
list (or from the freshly grown range). -/
theorem insert_facts {α : Type} (s t : SlotMap α) (v : α) (h : Handle)
    (hwf : s.wf) (hins : s.insert v = some (h, t)) :
    t.wf ∧ s.handle_count ≤ t.handle_count ∧
    (t.handle_count = s.handle_count ∨ t.handle_count ≤ MAX_HANDLES) ∧
    t.minimum_queue_handles = s.minimum_queue_handles ∧
    t.dead_indices = s.dead_indices ∧
    h.isValid = true ∧
    (∀ i, i < s.handle_count → t.generations.get? i = s.generations.get? i) ∧
    (∀ z, z ∈ t.freelist.toList →
      z ∈ s.freelist.toList ∨ s.handle_count ≤ z) ∧
    ∃ index g, index < t.handle_count ∧
      h.index = index % (MAX_HANDLES + 1) ∧
      h.generation = g % (MAX_GENERATIONS + 1) ∧
      t.generations.get? index = some g ∧
      (index ∈ s.freelist.toList ∨ s.handle_count ≤ index) ∧
      (s.handle_count ≤ index → g = 0) ∧
      (g < MAX_GENERATIONS → index ≤ MAX_HANDLES →
        t.get h = GetRes.live v) := by
  unfold SlotMap.insert at hins
  cases hpre : s.preAlloc with
  | none => rw [hpre] at hins; cases hins
  | some s1 =>
    rw [hpre] at hins
    simp only [] at hins
    obtain ⟨swf, hle, hhcb, hmin, hdead, hgens, hzero, hmem⟩ :=
      preAlloc_facts s s1 hwf hpre
    obtain ⟨slen1, slen2, sflwf⟩ := swf
    by_cases hemp : s1.freelist.emptyq
    · rw [if_pos hemp] at hins; cases hins
    · rw [if_neg hemp] at hins
      have hne : s1.freelist.head ≠ s1.freelist.tail := by
        intro hcon
        exact hemp ((emptyq_iff s1.freelist).mpr hcon)
      obtain ⟨pwf, pcap, ptoList⟩ := pop_spec s1.freelist sflwf hne
      by_cases hidx : (s1.freelist.pop).1 < s1.handle_count
      · rw [if_pos hidx] at hins
        cases hg : s1.generations.get? (s1.freelist.pop).1 with
        | none => rw [hg] at hins; cases hins
        | some g =>
          rw [hg] at hins
          simp only [] at hins
          by_cases hval : (⟨(s1.freelist.pop).1 % (MAX_HANDLES + 1),
              g % (MAX_GENERATIONS + 1)⟩ : Handle).isValid = true
          · rw [if_pos hval] at hins
            injection hins with hpe
            rw [Prod.mk.injEq] at hpe
            obtain ⟨hh, ht⟩ := hpe
            subst hh
            subst ht
            have hpopmem : (s1.freelist.pop).1 ∈ s1.freelist.toList := by
              rw [ptoList]
              exact List.mem_cons_self _ _
            refine ⟨⟨?_, ?_, pwf⟩, show s.handle_count ≤ s1.handle_count
              from hle, hhcb, hmin, hdead, hval, ?_, ?_, ?_⟩
            · show (s1.data.set _ _).length = s1.handle_count
              simpa using slen1
            · show s1.generations.length = s1.handle_count
              exact slen2
            · intro i hi
              exact hgens i hi
            · intro z hz
              have hz1 : z ∈ s1.freelist.toList := by
                rw [ptoList]
                exact List.mem_cons_of_mem _ hz
              exact hmem z hz1
            · refine ⟨(s1.freelist.pop).1, g, hidx, rfl, rfl, hg,
                hmem _ hpopmem, ?_, ?_⟩
              · intro hge
                have h0 := hzero (s1.freelist.pop).1 hge hidx
                rw [hg] at h0
                exact Option.some_inj.mp h0
              · intro hglt hile
                have hident : (s1.freelist.pop).1 % (MAX_HANDLES + 1) =
                    (s1.freelist.pop).1 := Nat.mod_eq_of_lt (by omega)
                have hgid : g % (MAX_GENERATIONS + 1) = g :=
                  Nat.mod_eq_of_lt (by omega)
                refine get_eq_live _ _ _ hval ?_ ?_ ?_
                · show ¬ (s1.freelist.pop).1 % (MAX_HANDLES + 1) >
                    s1.handle_count
                  rw [hident]
                  omega
                · show s1.generations.get?
                      ((s1.freelist.pop).1 % (MAX_HANDLES + 1)) =
                    some (g % (MAX_GENERATIONS + 1))
                  rw [hident, hgid]
                  exact hg
                · show (s1.data.set (s1.freelist.pop).1 (some v)).get?
                      ((s1.freelist.pop).1 % (MAX_HANDLES + 1)) =
                    some (some v)
                  rw [hident]
                  exact get?_set_self _ _ _ (by omega)
          · rw [if_neg hval] at hins
            cases hins
      · rw [if_neg hidx] at hins
        cases hins

/-- The small-capacity regime (`handle_count` within the 24-bit handle
range): the bitfield truncation of the popped index is the identity, so
the returned handle addresses the popped slot directly. -/
theorem insert_facts_small {α : Type} (s t : SlotMap α) (v : α) (h : Handle)
    (hwf : s.wf) (hcap : s.handle_count ≤ MAX_HANDLES + 1)
    (hins : s.insert v = some (h, t)) :
    h.index < t.handle_count ∧
    (h.index ∈ s.freelist.toList ∨ s.handle_count ≤ h.index) ∧
    ∃ g, t.generations.get? h.index = some g ∧
      h.generation = g % (MAX_GENERATIONS + 1) ∧
      (s.handle_count ≤ h.index → g = 0) ∧
      (g < MAX_GENERATIONS → t.get h = GetRes.live v) := by
  obtain ⟨_, _, hhcb, _, _, _, _, _, index, g, hilt, hhi, hhg, hgat, hfrom,
    hz0, hlive⟩ := insert_facts s t v h hwf hins
  have hismall : index ≤ MAX_HANDLES := by
    rcases hhcb with hb | hb
    · omega
    · omega
  have hident : h.index = index := by
    rw [hhi]
    exact Nat.mod_eq_of_lt (by omega)
  rw [hident]
  exact ⟨hilt, hfrom, g, hgat, hhg, hz0, fun hg2 => hlive hg2 hismall⟩

/-- Facts about `remove` on a handle whose generation matches the slot
(the validated removal of a live handle): the slot is destroyed, its
generation moves up by exactly one (no wraparound is possible below the
exhaustion marker), and the index is pushed back unless the new
generation reaches the marker, in which case the slot is retired and the
dead counter incremented. -/
theorem remove_live_facts {α : Type} (s : SlotMap α) (h : Handle)
    (hwf : s.wf) (hvalid : h.isValid = true)
    (hmatch : s.generations.get? h.index = some h.generation) :
    ∃ t, s.remove h = some t ∧
      t.handle_count = s.handle_count ∧
      t.minimum_queue_handles = s.minimum_queue_handles ∧
      t.wf ∧
      (∀ i, i ≠ h.index → t.generations.get? i = s.generations.get? i) ∧
      t.generations.get? h.index = some (h.generation + 1) ∧
      (∀ z, z ∈ t.freelist.toList →
        z ∈ s.freelist.toList ∨ z = h.index) ∧
      (h.generation + 1 = MAX_GENERATIONS →
        t.freelist = s.freelist ∧ t.dead_indices = s.dead_indices + 1) ∧
      (h.generation + 1 < MAX_GENERATIONS →
        t.dead_indices = s.dead_indices) := by
  obtain ⟨hlen1, hlen2, hflwf⟩ := hwf
  obtain ⟨hvi, hvg⟩ := isValid_iff h |>.mp hvalid
  have hidx : h.index < s.handle_count := by
    have := get?_lt_length hmatch
    omega
  have hmod : (h.generation + 1) % U32 = h.generation + 1 := by
    apply Nat.mod_eq_of_lt
    unfold MAX_GENERATIONS at hvg
    unfold U32
    omega
  unfold SlotMap.remove
  rw [if_neg (by
    simp only [not_or]
    constructor
    · simp [hvalid]
    · omega)]
  simp only []
  rw [hmatch]
  simp only [hmod]
  by_cases hbr : h.generation + 1 < MAX_GENERATIONS
  · rw [if_pos hbr]
    refine ⟨_, rfl, rfl, rfl, ⟨?_, ?_, ?_⟩, ?_, ?_, ?_, ?_, ?_⟩
    · simpa using hlen1
    · simpa using hlen2
    · exact (push_wf _ h.index hflwf).1
    · intro i hi
      exact get?_set_ne _ _ _ _ (fun hcon => hi hcon.symm)
    · exact get?_set_self _ _ _ (by omega)
    · intro z hz
      exact push_mem _ _ _ hflwf hz
    · intro hcon
      omega
    · intro _
      rfl
  · rw [if_neg hbr]
    have hbr' : h.generation + 1 = MAX_GENERATIONS := by
      unfold MAX_GENERATIONS at hvg hbr ⊢
      omega
    refine ⟨_, rfl, rfl, rfl, ⟨?_, ?_, hflwf⟩, ?_, ?_, ?_, ?_, ?_⟩
    · simpa using hlen1
    · simpa using hlen2
    · intro i hi
      exact get?_set_ne _ _ _ _ (fun hcon => hi hcon.symm)
    · exact get?_set_self _ _ _ (by omega)
    · intro z hz
      exact Or.inl hz
    · intro _
      exact ⟨rfl, rfl⟩
    · intro hcon
      omega

/-- `emplace` invoked with a single argument performs exactly the steps of
`insert`. -/
theorem emplace_eq_insert {α : Type} (s : SlotMap α) (v : α) :
    s.emplace v = s.insert v := rfl

/-- One valid step preserves well-formedness, never shrinks the capacity,
and never decreases any slot generation. -/
theorem vstep_mono {α : Type} {s s' : SlotMap α} (hs : VStep s s')
    (hwf : s.wf) :
    s'.wf ∧ s.handle_count ≤ s'.handle_count ∧
    (s.handle_count ≤ MAX_HANDLES + 1 →
      s'.handle_count ≤ MAX_HANDLES + 1) ∧
    ∀ i g, s.generations.get? i = some g →
      ∃ g', s'.generations.get? i = some g' ∧ g ≤ g' := by
  have hlen2 : s.generations.length = s.handle_count := hwf.2.1
  cases hs with
  | ins v h sa sb hins =>
    obtain ⟨twf, thc, thcb, _, _, _, tgens, _, _⟩ :=
      insert_facts _ _ v h hwf hins
    refine ⟨twf, thc, ?_, ?_⟩
    · intro hbound
      rcases thcb with he | hb
      · omega
      · omega
    · intro i g hgi
      have hi : i < s.handle_count := by
        have := get?_lt_length hgi
        omega
      exact ⟨g, by rw [tgens i hi]; exact hgi, Nat.le_refl g⟩
  | emp v h sa sb hins =>
    rw [emplace_eq_insert] at hins
    obtain ⟨twf, thc, thcb, _, _, _, tgens, _, _⟩ :=
      insert_facts _ _ v h hwf hins
    refine ⟨twf, thc, ?_, ?_⟩
    · intro hbound
      rcases thcb with he | hb
      · omega
      · omega
    · intro i g hgi
      have hi : i < s.handle_count := by
        have := get?_lt_length hgi
        omega
      exact ⟨g, by rw [tgens i hi]; exact hgi, Nat.le_refl g⟩
  | rem h sa sb hvalid hmatch hrem =>
    obtain ⟨t, hrem', thc, _, twf, tgens, tgenh, _, _, _⟩ :=
      remove_live_facts _ h hwf hvalid hmatch
    rw [hrem'] at hrem
    obtain rfl := Option.some_inj.mp hrem
    refine ⟨twf, by omega, by omega, ?_⟩
    intro i g hgi
    by_cases hieq : i = h.index
    · subst hieq
      rw [hgi] at hmatch
      obtain rfl := Option.some_inj.mp hmatch
      exact ⟨h.generation + 1, tgenh, by omega⟩
    · exact ⟨g, by rw [tgens i hieq]; exact hgi, Nat.le_refl g⟩

/-- `vstep_mono` extended along any chain of valid operations. -/
theorem vchain_mono {α : Type} {s s' : SlotMap α} (hc : VChain s s')
    (hwf : s.wf) :
    s'.wf ∧ s.handle_count ≤ s'.handle_count ∧
    (s.handle_count ≤ MAX_HANDLES + 1 →
      s'.handle_count ≤ MAX_HANDLES + 1) ∧
    ∀ i g, s.generations.get? i = some g →
      ∃ g', s'.generations.get? i = some g' ∧ g ≤ g' := by
  induction hc with
  | refl =>
    exact ⟨hwf, Nat.le_refl _, fun hb => hb,
      fun i g hgi => ⟨g, hgi, Nat.le_refl g⟩⟩
  | tail hab hbc ih =>
    obtain ⟨bwf, bhc, bhcb, bgens⟩ := ih
    obtain ⟨cwf, chc, chcb, cgens⟩ := vstep_mono hbc bwf
    refine ⟨cwf, by omega, fun hb => chcb (bhcb hb), ?_⟩
    intro i g hgi
    obtain ⟨g1, hg1, hle1⟩ := bgens i g hgi
    obtain ⟨g2, hg2, hle2⟩ := cgens i g1 hg1
    exact ⟨g2, hg2, by omega⟩

/-- A retired slot stays retired through any valid step. -/
theorem retired_step {α : Type} {i : Nat} {s s' : SlotMap α}
    (hs : VStep s s') (hwf : s.wf) (hr : RetiredInv i s) : RetiredInv i s' := by
  obtain ⟨hri, hrg, hrn⟩ := hr
  cases hs with
  | ins v h sa sb hins =>
    obtain ⟨_, thc, _, _, _, _, tgens, tmem, _⟩ :=
      insert_facts _ _ v h hwf hins
    refine ⟨by omega, by rw [tgens i hri]; exact hrg, ?_⟩
    intro hcon
    rcases tmem i hcon with hin | hin
    · exact hrn hin
    · omega
  | emp v h sa sb hins =>
    rw [emplace_eq_insert] at hins
    obtain ⟨_, thc, _, _, _, _, tgens, tmem, _⟩ :=
      insert_facts _ _ v h hwf hins
    refine ⟨by omega, by rw [tgens i hri]; exact hrg, ?_⟩
    intro hcon
    rcases tmem i hcon with hin | hin
    · exact hrn hin
    · omega
  | rem h sa sb hvalid hmatch hrem =>
    obtain ⟨_, hvg⟩ := (isValid_iff h).mp hvalid
    have hne : h.index ≠ i := by
      intro hcon
      rw [hcon, hrg] at hmatch
      obtain hgen := Option.some_inj.mp hmatch
      omega
    obtain ⟨t, hrem', thc, _, _, tgens, _, tmem, _, _⟩ :=
      remove_live_facts _ h hwf hvalid hmatch
    rw [hrem'] at hrem
    obtain rfl := Option.some_inj.mp hrem
    refine ⟨by omega, by rw [tgens i (fun hcon => hne hcon.symm)]; exact hrg,
      ?_⟩
    intro hcon
    rcases tmem i hcon with hin | hin
    · exact hrn hin
    · exact hne hin.symm

/-- A retired slot stays retired through any chain of valid operations. -/
theorem retired_chain {α : Type} {i : Nat} {s s' : SlotMap α}
    (hc : VChain s s') (hwf : s.wf) (hr : RetiredInv i s) :
    RetiredInv i s' := by
  induction hc with
  | refl => exact hr
  | tail hab hbc ih =>
    have hbwf := (vchain_mono hab hwf).1
    exact retired_step hbc hbwf (ih)

/-- No insertion into a state with a retired slot can return a handle
aliasing that slot. -/
theorem retired_insert {α : Type} {i : Nat} {s t : SlotMap α} {v : α}
    {h : Handle} (hwf : s.wf) (hcap : s.handle_count ≤ MAX_HANDLES + 1)
    (hr : RetiredInv i s) (hins : s.insert v = some (h, t)) : h.index ≠ i := by
  obtain ⟨hri, _, hrn⟩ := hr
  obtain ⟨_, hfrom, _⟩ := insert_facts_small _ _ v h hwf hcap hins
  intro hcon
  rcases hfrom with hin | hin
  · rw [hcon] at hin
    exact hrn hin
  · omega

/-- `validCount` in the common regime where the `uint32` arithmetic does
not wrap. -/
theorem validCount_eq {α : Type} (s : SlotMap α)
    (h1 : s.freelist.size + s.dead_indices ≤ s.handle_count)
    (h2 : s.handle_count < U32) :
    s.validCount = s.handle_count - s.freelist.size - s.dead_indices := by
  unfold SlotMap.validCount
  have hs : s.freelist.size % U32 = s.freelist.size :=
    Nat.mod_eq_of_lt (by omega)
  have hd : s.dead_indices % U32 = s.dead_indices :=
    Nat.mod_eq_of_lt (by omega)
  rw [hs, hd]
  have hU : (0:Int) < (U32:Int) := by
    unfold U32
    omega
  rw [Int.emod_eq_of_lt (by omega) (by omega)]
  omega

/-- Splitting an iterated removal. -/
theorem remIter_add (m n : Nat) (s : SlotMap Nat) :
    remIter (m + n) s = (remIter m s).bind (remIter n) := by
  induction m generalizing s with
  | zero =>
    simp [remIter]
  | succ m ih =>
    rw [show m + 1 + n = (m + n) + 1 by omega]
    show (s.remove h00).bind (remIter (m + n)) = _
    rw [show remIter (m + 1) s = (s.remove h00).bind (remIter m) from rfl]
    cases s.remove h00 with
    | none => rfl
    | some t =>
      simp only [Option.some_bind]
      exact ih t

/-- Splitting an iterated insertion. -/
theorem insN_add (m n : Nat) (s : SlotMap Nat) :
    insN (m + n) s = (insN m s).bind (insN n) := by
  induction m generalizing s with
  | zero =>
    simp [insN]
  | succ m ih =>
    rw [show m + 1 + n = (m + n) + 1 by omega]
    show (s.insert 0).bind (fun p => insN (m + n) p.2) = _
    rw [show insN (m + 1) s = (s.insert 0).bind (fun p => insN m p.2) from rfl]
    cases s.insert 0 with
    | none => rfl
    | some p =>
      simp only [Option.some_bind]
      exact ih p.2

/-- Removing through `h00` once more while the generation of slot 0 sits
in the dead zone (at or above the exhaustion marker, below the `uint32`
wraparound): the destructor runs again, the generation climbs by one, the
dead counter climbs by one, and nothing is queued. -/
theorem midS_step (g d : Nat) (hg : 254 ≤ g) (hlt : g + 1 < U32) :
    (midS g d).remove h00 = some (midS (g + 1) (d + 1)) := by
  unfold SlotMap.remove
  have hguard : ¬(h00.isValid = false ∨ h00.index > (midS g d).handle_count) := by
    simp only [not_or]
    refine ⟨?_, ?_⟩
    · show ¬ h00.isValid = false
      decide
    · show ¬ h00.index > 2
      decide
  rw [if_neg hguard]
  have hget : (midS g d).generations.get? h00.index = some g := rfl
  rw [hget]
  simp only []
  rw [Nat.mod_eq_of_lt hlt]
  rw [if_neg (by
    show ¬ g + 1 < MAX_GENERATIONS
    unfold MAX_GENERATIONS
    omega)]
  rfl

/-- The dead-zone removals iterated. -/
theorem midS_iter (j g d : Nat) (hg : 254 ≤ g) (hle : g + j < U32) :
    remIter j (midS g d) = some (midS (g + j) (d + j)) := by
  induction j generalizing g d with
  | zero =>
    simp [remIter]
  | succ j ih =>
    show ((midS g d).remove h00).bind (remIter j) = _
    rw [midS_step g d hg (by omega)]
    simp only [Option.some_bind]
    rw [ih (g + 1) (d + 1) (by omega) (by omega)]
    rw [show g + 1 + j = g + (j + 1) by omega, show d + 1 + j = d + (j + 1)
      by omega]

/-- Composition of two iterated-removal runs. -/
theorem remIter_chain (m n : Nat) (s t u : SlotMap Nat)
    (h1 : remIter m s = some t) (h2 : remIter n t = some u) :
    remIter (m + n) s = some u := by
  rw [remIter_add m n s, h1]
  simp only [Option.some_bind]
  exact h2

/-- Composition of two iterated-insertion runs. -/
theorem insN_chain (m n : Nat) (s t u : SlotMap Nat)
    (h1 : insN m s = some t) (h2 : insN n t = some u) :
    insN (m + n) s = some u := by
  rw [insN_add m n s, h1]
  simp only [Option.some_bind]
  exact h2

/-- The first 255 removals through `h00`: the 255th drives the slot
generation to the exhaustion marker and retires the slot (dead counter 1,
nothing queued by that removal). -/
theorem remIter_to_exhaustion : remIter 255 cexS1 = some (midS 255 1) := by
  decide

/-- The removal that wraps the 32-bit generation counter back to 0: the
branch `gen < MAX_GENERATIONS` holds again, so the retired slot 0 is
pushed back onto the free list. -/
theorem remIter_wrapstep :
    (midS (U32 - 1) (U32 - 255)).remove h00 = some cexSF := by decide

/-- The full 2^32-removal trace: from the state right after the first
insertion, the generation of slot 0 wraps all the way around and the slot
is queued again. -/
theorem remIter_full : remIter U32 cexS1 = some cexSF := by
  have e2 : remIter (U32 - 256) (midS 255 1) =
      some (midS (U32 - 1) (U32 - 255)) := by
    have hit := midS_iter (U32 - 256) 255 1 (by omega) (by unfold U32; omega)
    rw [hit, show 255 + (U32 - 256) = U32 - 1 by unfold U32; omega,
      show (1 : Nat) + (U32 - 256) = U32 - 255 by unfold U32; omega]
  have e3 : remIter 1 (midS (U32 - 1) (U32 - 255)) = some cexSF := by
    show ((midS (U32 - 1) (U32 - 255)).remove h00).bind (remIter 0) = _
    rw [remIter_wrapstep]
    rfl
  have eRest : remIter ((U32 - 256) + 1) (midS 255 1) = some cexSF :=
    remIter_chain (U32 - 256) 1 _ _ _ e2 e3
  have hsplit : (255 : Nat) + ((U32 - 256) + 1) = U32 := by
    unfold U32
    omega
  rw [← hsplit]
  exact remIter_chain 255 ((U32 - 256) + 1) _ _ _ remIter_to_exhaustion eRest

/-- A push onto an unwrapped, non-full free list whose read cursor is
parked at 0: the write lands at the tail cell and the write cursor
advances. -/
theorem push_straight (buf : List Nat) (t x : Nat) (ht : t < buf.length) :
    FreeList.push ⟨buf, 0, t⟩ x = ⟨buf.set t x, 0, t + 1⟩ := by
  have hne : ¬((⟨buf, 0, t⟩ : FreeList).tail =
      (⟨buf, 0, t⟩ : FreeList).capacity) := by
    show ¬(t = buf.length)
    omega
  have hgrow : FreeList.growIfNeeded ⟨buf, 0, t⟩ = ⟨buf, 0, t⟩ := by
    unfold FreeList.growIfNeeded
    rw [if_pos (show (⟨buf, 0, t⟩ : FreeList).head = 0 from rfl), if_neg hne]
  show FreeList.pushWrite (FreeList.growIfNeeded ⟨buf, 0, t⟩) x = _
  rw [hgrow]
  unfold FreeList.pushWrite
  rw [if_neg hne]

/-- A push onto a full unwrapped free list whose read cursor is parked at
0: the simple-realloc branch doubles the buffer, then the write lands in
the first fresh cell. -/
theorem push_straight_grow (buf : List Nat) (x : Nat) (h0 : 0 < buf.length) :
    FreeList.push ⟨buf, 0, buf.length⟩ x =
      ⟨(buf ++ List.replicate buf.length 0).set buf.length x, 0,
        buf.length + 1⟩ := by
  have hgrow : FreeList.growIfNeeded ⟨buf, 0, buf.length⟩ =
      ⟨buf ++ List.replicate buf.length 0, 0, buf.length⟩ := by
    unfold FreeList.growIfNeeded
    rw [if_pos (show (⟨buf, 0, buf.length⟩ : FreeList).head = 0 from rfl),
      if_pos (show (⟨buf, 0, buf.length⟩ : FreeList).tail =
        (⟨buf, 0, buf.length⟩ : FreeList).capacity from rfl)]
    rfl
  show FreeList.pushWrite (FreeList.growIfNeeded ⟨buf, 0, buf.length⟩) x = _
  rw [hgrow]
  unfold FreeList.pushWrite
  rw [if_neg (show ¬((⟨buf ++ List.replicate buf.length 0, 0, buf.length⟩ :
      FreeList).tail = (⟨buf ++ List.replicate buf.length 0, 0,
        buf.length⟩ : FreeList).capacity) from by
    show ¬(buf.length = (buf ++ List.replicate buf.length 0).length)
    simp only [List.length_append, List.length_replicate]
    omega)]

/-- The constructor free list: the pushed indices land in cells 0..C-1 of
a buffer that starts at the default 1024 cells and doubles whenever it
fills, with the read cursor still at 0 and the write cursor at C. -/
theorem c3_base (C : Nat) :
    ∃ buf : List Nat,
      pushAll (FreeList.init 1024) (List.range C) = ⟨buf, 0, C⟩ ∧
      C ≤ buf.length ∧ 1024 ≤ buf.length ∧ ∀ k, k < C → bget buf k = k := by
  induction C with
  | zero =>
    refine ⟨List.replicate 1024 0, rfl, by simp, by simp, ?_⟩
    exact fun k hk => absurd hk (Nat.not_lt_zero k)
  | succ n ih =>
    obtain ⟨buf, hP, hlen, hlen2, hcells⟩ := ih
    have hstep : pushAll (FreeList.init 1024) (List.range (n + 1)) =
        FreeList.push (pushAll (FreeList.init 1024) (List.range n)) n := by
      rw [List.range_succ]
      unfold pushAll
      rw [List.foldl_append]
      rfl
    by_cases hfull : n < buf.length
    · refine ⟨buf.set n n, ?_, ?_, ?_, ?_⟩
      · rw [hstep, hP, push_straight buf n n hfull]
      · rw [List.length_set]
        omega
      · rw [List.length_set]
        omega
      · intro k hk
        by_cases hkn : k = n
        · subst hkn
          exact bget_set_self (by omega)
        · rw [bget_set_ne (Ne.symm hkn)]
          exact hcells k (by omega)
    · have hn : n = buf.length := by omega
      subst hn
      refine ⟨(buf ++ List.replicate buf.length 0).set buf.length buf.length,
        ?_, ?_, ?_, ?_⟩
      · rw [hstep, hP]
        exact push_straight_grow buf buf.length (by omega)
      · rw [List.length_set]
        simp only [List.length_append, List.length_replicate]
        omega
      · rw [List.length_set]
        simp only [List.length_append, List.length_replicate]
        omega
      · intro k hk
        by_cases hkn : k = buf.length
        · subst hkn
          refine bget_set_self ?_
          simp only [List.length_append, List.length_replicate]
          omega
        · rw [bget_set_ne (Ne.symm hkn)]
          have hklt : k < buf.length := by omega
          rw [bget_append_left hklt]
          exact hcells k hklt

/-- One insertion in the pre-growth regime: with at least
`minimum_queue_handles` entries still queued, `insert` pops the front
index `j` and only advances the read cursor (which wraps to 0, resetting
the then-equal write cursor, exactly when it walks off the end of the
buffer). -/
theorem c3_step (C M j : Nat) (buf : List Nat) (d : List (Option Nat))
    (hM1 : 1 ≤ M) (hjM : j + M ≤ C) (_hCb : C ≤ buf.length)
    (hCH : C ≤ MAX_HANDLES) (hcell : bget buf j = j) :
    SlotMap.insert
        (⟨C, M, d, List.replicate C 0, ⟨buf, j, C⟩, 0⟩ : SlotMap Nat) 0 =
      some (⟨j, 0⟩, ⟨C, M, d.set j (some 0), List.replicate C 0,
        (if j + 1 ≥ buf.length then (⟨buf, 0, 0⟩ : FreeList)
         else ⟨buf, j + 1, C⟩), 0⟩) := by
  have hjC : j < C := by omega
  have hsz : FreeList.size ⟨buf, j, C⟩ = C - j := by
    rw [size_mk, if_neg (by omega)]
  have hneed : SlotMap.needNewHandles
      (⟨C, M, d, List.replicate C 0, ⟨buf, j, C⟩, 0⟩ : SlotMap Nat) ≠
        true := by
    show ¬(decide (FreeList.size ⟨buf, j, C⟩ < M) = true)
    rw [hsz]
    simp only [decide_eq_true_eq]
    omega
  have hpre : SlotMap.preAlloc
      (⟨C, M, d, List.replicate C 0, ⟨buf, j, C⟩, 0⟩ : SlotMap Nat) =
      some ⟨C, M, d, List.replicate C 0, ⟨buf, j, C⟩, 0⟩ := by
    unfold SlotMap.preAlloc
    rw [if_neg hneed]
  have hpop : FreeList.pop ⟨buf, j, C⟩ =
      (j, if j + 1 ≥ buf.length then (⟨buf, 0, 0⟩ : FreeList)
        else ⟨buf, j + 1, C⟩) := by
    by_cases hw : j + 1 ≥ buf.length
    · unfold FreeList.pop
      rw [if_pos (show (⟨buf, j, C⟩ : FreeList).head + 1 ≥
          (⟨buf, j, C⟩ : FreeList).capacity from hw)]
      rw [if_pos hw]
      rw [if_pos (show (⟨buf, j, C⟩ : FreeList).tail ≥
          (⟨buf, j, C⟩ : FreeList).capacity from by
        show C ≥ buf.length
        omega)]
      show (buf.getD j 0, (⟨buf, 0, 0⟩ : FreeList)) = _
      rw [show buf.getD j 0 = j from hcell]
    · unfold FreeList.pop
      rw [if_neg (show ¬((⟨buf, j, C⟩ : FreeList).head + 1 ≥
          (⟨buf, j, C⟩ : FreeList).capacity) from hw)]
      rw [if_neg hw]
      show (buf.getD j 0, (⟨buf, j + 1, C⟩ : FreeList)) = _
      rw [show buf.getD j 0 = j from hcell]
  have hemp : ¬(FreeList.emptyq ⟨buf, j, C⟩ = true) := by
    show ¬((j == C) = true)
    simp only [beq_iff_eq]
    omega
  have hg : (List.replicate C (0 : Nat)).get? j = some 0 :=
    get?_replicate 0 C j hjC
  have hhandle : (⟨j % (MAX_HANDLES + 1),
      (0 : Nat) % (MAX_GENERATIONS + 1)⟩ : Handle) = ⟨j, 0⟩ := by
    rw [Nat.mod_eq_of_lt (show j < MAX_HANDLES + 1 from by omega),
      Nat.zero_mod]
  unfold SlotMap.insert
  rw [hpre]
  simp only []
  rw [if_neg hemp, hpop]
  simp only []
  rw [if_pos hjC, hg]
  simp only []
  rw [hhandle]
  rw [if_pos (show (⟨j, 0⟩ : Handle).isValid = true from
    (isValid_iff _).mpr ⟨show j < MAX_HANDLES from by omega,
      show (0 : Nat) < MAX_GENERATIONS from by decide⟩)]

/-- The growth insertion: with fewer than `minimum_queue_handles` entries
left in the queue, `insert` first doubles `m_handle_count` and queues the
fresh indices, then services the allocation from the enlarged map. -/
theorem c3_grow (C M : Nat) (fl : FreeList) (d : List (Option Nat))
    (hM1 : 1 ≤ M) (hMC : M < C) (hmax : C * 2 ≤ MAX_HANDLES)
    (hwfl : wfFL fl) (hszlt : fl.size < M) (hh : fl.head ≠ 1)
    (hmem : ∀ z, z ∈ fl.toList → z < C) :
    ∃ h t, SlotMap.insert
        (⟨C, M, d, List.replicate C 0, fl, 0⟩ : SlotMap Nat) 0 =
      some (h, t) ∧ t.handle_count = C * 2 := by
  have hneed : SlotMap.needNewHandles
      (⟨C, M, d, List.replicate C 0, fl, 0⟩ : SlotMap Nat) = true := by
    show decide (fl.size < M) = true
    simp only [decide_eq_true_eq]
    exact hszlt
  obtain ⟨pwf, phead, pcap, ptoList⟩ :=
    pushAll_spec fl (List.range' C (C * 2 - C)) hwfl hh
  have hpre : SlotMap.preAlloc
      (⟨C, M, d, List.replicate C 0, fl, 0⟩ : SlotMap Nat) =
      some ⟨C * 2, M, d ++ List.replicate (C * 2 - C) none,
        List.replicate C 0 ++ List.replicate (C * 2 - C) 0,
        pushAll fl (List.range' C (C * 2 - C)), 0⟩ := by
    unfold SlotMap.preAlloc
    rw [if_pos hneed]
    unfold SlotMap.resize
    rw [if_pos (show SlotMap.handle_count
        (⟨C, M, d, List.replicate C 0, fl, 0⟩ : SlotMap Nat) * 2 ≤
          MAX_HANDLES from hmax)]
  have hne : (pushAll fl (List.range' C (C * 2 - C))).head ≠
      (pushAll fl (List.range' C (C * 2 - C))).tail := by
    intro hcon
    have h0 : (pushAll fl (List.range' C (C * 2 - C))).size = 0 :=
      (size_zero_iff pwf).mpr hcon
    have hL := toList_length (pushAll fl (List.range' C (C * 2 - C)))
    rw [ptoList, h0] at hL
    simp only [List.length_append, List.length_range'] at hL
    omega
  have hemp : ¬(FreeList.emptyq
      (pushAll fl (List.range' C (C * 2 - C))) = true) := by
    rw [emptyq_iff]
    exact hne
  obtain ⟨qwf, qcap, qtoList⟩ :=
    pop_spec (pushAll fl (List.range' C (C * 2 - C))) pwf hne
  have hretmem : (FreeList.pop (pushAll fl (List.range' C (C * 2 - C)))).1 ∈
      (pushAll fl (List.range' C (C * 2 - C))).toList := by
    rw [qtoList]
    exact List.mem_cons_self _ _
  have hretlt : (FreeList.pop
      (pushAll fl (List.range' C (C * 2 - C)))).1 < C * 2 := by
    have hz := hretmem
    rw [ptoList] at hz
    rcases List.mem_append.mp hz with hz1 | hz1
    · have := hmem _ hz1
      omega
    · have := List.mem_range'_1.mp hz1
      omega
  have happ : List.replicate C (0 : Nat) ++ List.replicate (C * 2 - C) 0 =
      List.replicate (C * 2) 0 := by
    rw [← List.replicate_add]
    congr 1
    omega
  have hg2 : (List.replicate C (0 : Nat) ++
      List.replicate (C * 2 - C) 0).get? (FreeList.pop
        (pushAll fl (List.range' C (C * 2 - C)))).1 = some 0 := by
    rw [happ]
    exact get?_replicate 0 (C * 2) _ hretlt
  have hhandle : (⟨(FreeList.pop
        (pushAll fl (List.range' C (C * 2 - C)))).1 % (MAX_HANDLES + 1),
      (0 : Nat) % (MAX_GENERATIONS + 1)⟩ : Handle) =
      ⟨(FreeList.pop (pushAll fl (List.range' C (C * 2 - C)))).1, 0⟩ := by
    rw [Nat.mod_eq_of_lt (by omega), Nat.zero_mod]
  refine ⟨⟨(FreeList.pop (pushAll fl (List.range' C (C * 2 - C)))).1, 0⟩,
    ⟨C * 2, M, (d ++ List.replicate (C * 2 - C) none).set
        (FreeList.pop (pushAll fl (List.range' C (C * 2 - C)))).1 (some 0),
      List.replicate C 0 ++ List.replicate (C * 2 - C) 0,
      (FreeList.pop (pushAll fl (List.range' C (C * 2 - C)))).2,
      0⟩, ?_, rfl⟩
  unfold SlotMap.insert
  rw [hpre]
  simp only []
  rw [if_neg hemp, if_pos hretlt, hg2]
  simp only []
  rw [hhandle]
  rw [if_pos (show (⟨(FreeList.pop
        (pushAll fl (List.range' C (C * 2 - C)))).1, 0⟩ : Handle).isValid =
      true from (isValid_iff _).mpr
        ⟨show (FreeList.pop (pushAll fl (List.range' C (C * 2 - C)))).1 <
          MAX_HANDLES from by omega,
        show (0 : Nat) < MAX_GENERATIONS from by decide⟩)]

/-- The first C - M + 1 insertions into a fresh map: the state stays in
the pre-growth regime with the read cursor at `j` after `j` insertions,
except that popping the very last cell of an exactly-full buffer (only
possible at the final pre-growth state, with threshold 1) wraps both
cursors to 0. -/
theorem c3_run (C M : Nat) (hM1 : 1 ≤ M) (_hMC : M < C)
    (hCH : C ≤ MAX_HANDLES) :
    ∀ j, j + M ≤ C + 1 →
      ∃ d buf, d.length = C ∧ C ≤ buf.length ∧ 1024 ≤ buf.length ∧
        (∀ k, k < C → bget buf k = k) ∧
        ((j < buf.length ∧ insN j (SlotMap.init Nat C M) =
            some ⟨C, M, d, List.replicate C 0, ⟨buf, j, C⟩, 0⟩) ∨
         (j = buf.length ∧ C = buf.length ∧
          insN j (SlotMap.init Nat C M) =
            some ⟨C, M, d, List.replicate C 0, ⟨buf, 0, 0⟩, 0⟩)) := by
  intro j
  induction j with
  | zero =>
    intro _
    obtain ⟨buf, hP, hlen, hlen2, hcells⟩ := c3_base C
    refine ⟨List.replicate C none, buf, by simp, hlen, hlen2, hcells,
      Or.inl ⟨by omega, ?_⟩⟩
    show some (SlotMap.init Nat C M) = _
    unfold SlotMap.init
    rw [hP]
  | succ n ih =>
    intro hle
    obtain ⟨d, buf, hd, hCb, h1024, hcells, hcase⟩ := ih (by omega)
    rcases hcase with ⟨hnlt, hrun⟩ | ⟨hneq, hCeq, _⟩
    · have hstep := c3_step C M n buf d hM1 (by omega) hCb hCH
        (hcells n (by omega))
      refine ⟨d.set n (some 0), buf, by simp [hd], hCb, h1024, hcells, ?_⟩
      have h1 : insN 1 (⟨C, M, d, List.replicate C 0, ⟨buf, n, C⟩, 0⟩ :
          SlotMap Nat) = some ⟨C, M, d.set n (some 0), List.replicate C 0,
            (if n + 1 ≥ buf.length then (⟨buf, 0, 0⟩ : FreeList)
             else ⟨buf, n + 1, C⟩), 0⟩ := by
        show (SlotMap.insert (⟨C, M, d, List.replicate C 0, ⟨buf, n, C⟩,
            0⟩ : SlotMap Nat) 0).bind (fun p => insN 0 p.2) = _
        rw [hstep]
        rfl
      have hchain := insN_chain n 1 _ _ _ hrun h1
      by_cases hw : n + 1 ≥ buf.length
      · right
        have hn1 : n + 1 = buf.length := by omega
        have hCeq : C = buf.length := by omega
        rw [if_pos hw] at hchain
        exact ⟨hn1, hCeq, hchain⟩
      · left
        rw [if_neg hw] at hchain
        exact ⟨by omega, hchain⟩
    · exfalso
      omega

/-- Transfer of a per-element bound on a generations array to its `get?`
reads. -/
theorem gens_all_lt (l : List Nat) (hall : ∀ x ∈ l, x < MAX_GENERATIONS) :
    ∀ i g, l.get? i = some g → g < MAX_GENERATIONS :=
  fun _ g hg => hall g (List.get?_mem hg)

/-- C9 (amended): for every value v and every well-formed map state whose
capacity is within the 24-bit handle range and whose slot generations are
all below MAX_GENERATIONS (as in every state reached without stale
removes), `get` of the handle returned by a serviced insert yields v.
Both provisos are forced by the bitfield truncation in the `Handle`
construction: at a slot generation of 256 the insert is serviced but
returns a wrapped handle whose `get` is null. -/
theorem C9_round_trip {α : Type} (s t : SlotMap α) (v : α) (h : Handle)
    (hwf : s.wf) (hcap : s.handle_count ≤ MAX_HANDLES + 1)
    (hgens : ∀ i g, s.generations.get? i = some g → g < MAX_GENERATIONS)
    (hins : s.insert v = some (h, t)) :
    t.get h = GetRes.live v := by
  obtain ⟨hilt, _, g, hgat, _, hz0, hlive⟩ :=
    insert_facts_small s t v h hwf hcap hins
  by_cases hbig : s.handle_count ≤ h.index
  · refine hlive ?_
    rw [hz0 hbig]
    decide
  · have hlt : h.index < s.handle_count := by omega
    obtain ⟨_, _, _, _, _, _, tgens, _, _⟩ := insert_facts s t v h hwf hins
    have hsg : s.generations.get? h.index = some g := by
      rw [← tgens h.index hlt]
      exact hgat
    exact hlive (hgens h.index g hsg)

/-- Witness for C9 at a concrete input: inserting 5 into a fresh map of
capacity 2 yields handle (0,0) and `get` returns the live value 5. -/
theorem C9_witness :
    cexStart.wf ∧ cexStart.handle_count ≤ MAX_HANDLES + 1 ∧
    (∀ i g, cexStart.generations.get? i = some g → g < MAX_GENERATIONS) ∧
    cexStart.insert 5 = some (⟨0, 0⟩, cexS1) ∧
    cexS1.get ⟨0, 0⟩ = GetRes.live 5 :=
  ⟨by decide, by decide, gens_all_lt _ (by decide), by decide,
    C9_round_trip cexStart cexS1 5 ⟨0, 0⟩ (by decide) (by decide)
      (gens_all_lt _ (by decide)) (by decide)⟩

/-- C9 counterexample, along a trace the public interface reaches: after
the insertion of 5 and 256 removals through the same handle the slot
generation is 256 with the slot queued; the second following insertion is
serviced and returns the bit-truncated handle (0, 0), `get` of which
compares 0 with 256 and yields null instead of the just-inserted 7. -/
theorem C9_counterexample :
    remIter 256 cexS1 = some (midS 256 2) ∧
    (midS 256 2).insert 6 = some (⟨1, 0⟩, mid256A) ∧
    mid256A.insert 7 = some (⟨0, 0⟩, mid256B) ∧
    mid256B.data.get? 0 = some (some 7) ∧
    mid256B.get ⟨0, 0⟩ = GetRes.null := by
  have h255 : remIter 255 cexS1 = some (midS 255 1) := remIter_to_exhaustion
  have h1 : remIter 1 (midS 255 1) = some (midS 256 2) := by
    show ((midS 255 1).remove h00).bind (remIter 0) = _
    rw [midS_step 255 1 (by decide) (by decide)]
    rfl
  exact ⟨remIter_chain 255 1 cexS1 (midS 255 1) (midS 256 2) h255 h1,
    by decide, by decide, by decide, by decide⟩

/-- C10: `insert` and `emplace` called with the same single value return
equal handles and produce identical map states, on every map state: the
two operations perform exactly the same steps. -/
theorem C10_insert_emplace_agree {α : Type} (s : SlotMap α) (v : α) :
    s.insert v = s.emplace v := rfl

/-- C4 (code bug): a handle whose index equals `capacity()` passes the
`m_index > m_handle_count` range check (strict `>`), so `get` reads
`m_generations[capacity]` out of bounds instead of returning `nullptr`,
and `remove` likewise accesses out of bounds instead of being a no-op.
On a fresh map of capacity 2 the forged handle (2,0) has no defined
result at all, while the handle (3,0) one further out is rejected
cleanly, so the boundary case alone escapes the uniform-none outcome the
specification requires. -/
theorem C4_capacity_index_out_of_bounds :
    cexStart.capacity = 2 ∧
    cexStart.get ⟨2, 0⟩ = GetRes.undef ∧
    cexStart.remove ⟨2, 0⟩ = none ∧
    cexStart.get ⟨3, 0⟩ = GetRes.null ∧
    cexStart.remove ⟨3, 0⟩ = some cexStart := by decide

/-- C7 (code bug): the free list does not refine a FIFO queue.  Filling a
FreeList of capacity 16 with the indices 0..15, popping once and pushing
once more hits the missed-full state (head = 1, tail = capacity): the
push makes head = tail, the list reports empty with size 0, and all 16
remaining entries are silently discarded, although 17 pushes and 1 pop
should leave size 16 with 1 as the oldest entry. -/
theorem C7_fifo_collapse :
    c7F.size = 16 ∧ c7F.toList = List.range 16 ∧
    (c7F.pop).1 = 0 ∧ c7F1.size = 15 ∧ c7F1.head = 1 ∧
    c7F1.tail = 16 ∧ c7F1.capacity = 16 ∧
    c7F2.emptyq = true ∧ c7F2.size = 0 ∧ c7F2.toList = [] := by decide

/-- C2 (amended): with the NDEBUG guard compiled in, `remove` on a null
or out-of-range handle (index strictly greater than the capacity) is a
no-op and `get` returns null, and `get` on a stale-generation handle
returns null; but `remove` does not validate generations, so the
stale-remove part of the original claim is dropped. -/
theorem C2_invalid_handle_handling {α : Type} (s : SlotMap α) (h : Handle)
    (_hwf : s.wf) :
    (h.isValid = false ∨ s.handle_count < h.index →
      s.remove h = some s ∧ s.get h = GetRes.null) ∧
    (∀ g, s.generations.get? h.index = some g → h.generation ≠ g →
      s.get h = GetRes.null) := by
  constructor
  · intro hcase
    constructor
    · unfold SlotMap.remove
      rw [if_pos hcase]
    · unfold SlotMap.get
      rw [if_pos hcase]
  · intro g hg hne
    by_cases hguard : h.isValid = false ∨ s.handle_count < h.index
    · unfold SlotMap.get
      rw [if_pos hguard]
    · unfold SlotMap.get
      rw [if_neg hguard, hg]
      simp only []
      rw [if_neg hne]

/-- Witness for C2 at a concrete input: the null handle on the state
after one insertion. -/
theorem C2_witness :
    cexS1.wf ∧
    (Handle.nullHandle.isValid = false ∨
      cexS1.handle_count < Handle.nullHandle.index) ∧
    cexS1.remove Handle.nullHandle = some cexS1 ∧
    cexS1.get Handle.nullHandle = GetRes.null := by
  have happ := (C2_invalid_handle_handling cexS1 Handle.nullHandle
    (by decide)).1 (by decide)
  exact ⟨by decide, by decide, happ.1, happ.2⟩

/-- C2 counterexample: a structurally valid, in-range handle whose stored
generation (1) differs from the live slot generation (0) is not rejected
by `remove`: the live object in slot 0 is destroyed and the slot
generation is incremented, so the removal is not a no-op. -/
theorem C2_counterexample :
    cexS1.generations.get? 0 = some 0 ∧
    cexS1.data.get? 0 = some (some 5) ∧
    cexS1.remove ⟨0, 1⟩ = some c2after ∧
    c2after.generations.get? 0 = some 1 ∧
    c2after.data.get? 0 = some none ∧
    c2after ≠ cexS1 := by decide

/-- C1 (amended): once the generation stored at the slot of handle `h`
exceeds the generation packed in `h` (which holds immediately after a
validated `remove h`), every `get h` after any further chain of
insertions, emplacements and validated removals returns null: the
generations are monotone, so the slot generation can never again match
the handle. -/
theorem C1_invalidation {α : Type} (s s' : SlotMap α) (h : Handle)
    (g : Nat) (hwf : s.wf) (hg : s.generations.get? h.index = some g)
    (hlt : h.generation < g) (hchain : VChain s s') :
    s'.get h = GetRes.null := by
  obtain ⟨cwf, chc, _, cgens⟩ := vchain_mono hchain hwf
  obtain ⟨g', hg', hle⟩ := cgens h.index g hg
  unfold SlotMap.get
  by_cases hguard : h.isValid = false ∨ h.index > s'.handle_count
  · rw [if_pos hguard]
  · rw [if_neg hguard, hg']
    simp only []
    rw [if_neg (by omega)]

/-- Witness for C1 at a concrete input: in a state where slot 0 carries
generation 1, the old handle (0,0) stays null across a further
insertion. -/
theorem C1_witness :
    wit1s.wf ∧ wit1s.generations.get? 0 = some 1 ∧
    wit1s.insert 6 = some (⟨1, 0⟩, wit1t) ∧
    wit1t.get ⟨0, 0⟩ = GetRes.null := by
  have hchain : VChain wit1s wit1t :=
    Relation.ReflTransGen.single
      (VStep.ins 6 ⟨1, 0⟩ wit1s wit1t (by decide))
  exact ⟨by decide, by decide, by decide,
    C1_invalidation wit1s wit1t ⟨0, 0⟩ 1 (by decide) (by decide)
      (by decide) hchain⟩

/-- C1 counterexample: the handle (0,0) is issued by `insert`, removed
once, and after 2^32 - 1 further removals through the same (by then
stale) handle the `uint32` generation counter of slot 0 wraps to 0 and
the slot re-enters the free list; two insertions later `insert` returns
the bit-identical handle (0,0) again and `get (0,0)` yields the freshly
inserted live value 7 instead of none. -/
theorem C1_counterexample :
    cexStart.insert 5 = some (h00, cexS1) ∧
    remIter U32 cexS1 = some cexSF ∧
    cexSF.insert 6 = some (⟨1, 0⟩, cexSG) ∧
    cexSG.insert 7 = some (h00, cexSH) ∧
    cexSH.get h00 = GetRes.live 7 :=
  ⟨by decide, remIter_full, by decide, by decide, by decide⟩

/-- C5 (amended, part 1): immediately before the allocator pops an index
to service an insert or emplace, the free list holds at least
`minimum_available` entries, provided the free-list head cursor is not
parked at the missed-full corner position 1 when the grow runs. -/
theorem C5_threshold {α : Type} (s s1 : SlotMap α) (hwf : s.wf)
    (hM : s.minimum_queue_handles < s.handle_count)
    (hhead : s.freelist.head ≠ 1)
    (hpre : s.preAlloc = some s1) :
    s.minimum_queue_handles ≤ s1.freelist.size := by
  obtain ⟨_, _, hflwf⟩ := hwf
  unfold SlotMap.preAlloc at hpre
  by_cases hneed : s.needNewHandles
  · rw [if_pos hneed] at hpre
    unfold SlotMap.resize at hpre
    by_cases hcap : s.handle_count * 2 ≤ MAX_HANDLES
    · rw [if_pos hcap] at hpre
      obtain rfl := (Option.some_inj).mp hpre.symm
      obtain ⟨awf, _, _, atoList⟩ :=
        pushAll_spec s.freelist
          (List.range' s.handle_count (s.handle_count * 2 - s.handle_count))
          hflwf hhead
      have hlenA := toList_length
        (pushAll s.freelist
          (List.range' s.handle_count (s.handle_count * 2 - s.handle_count)))
      rw [atoList] at hlenA
      simp only [List.length_append, List.length_range'] at hlenA
      show s.minimum_queue_handles ≤
        (pushAll s.freelist
          (List.range' s.handle_count
            (s.handle_count * 2 - s.handle_count))).size
      omega
    · rw [if_neg hcap] at hpre
      cases hpre
  · rw [if_neg hneed] at hpre
    obtain rfl := (Option.some_inj).mp hpre.symm
    unfold SlotMap.needNewHandles at hneed
    simp at hneed
    exact hneed

/-- Witness for C5 at a concrete input: a fresh map of capacity 4 with
threshold 2 services the next allocation with the free list at size 4. -/
theorem C5_witness :
    (SlotMap.init Nat 4 2).wf ∧
    (SlotMap.init Nat 4 2).preAlloc = some (SlotMap.init Nat 4 2) ∧
    2 ≤ ((SlotMap.init Nat 4 2)).freelist.size := by
  refine ⟨by decide, by decide, ?_⟩
  exact C5_threshold (SlotMap.init Nat 4 2) (SlotMap.init Nat 4 2)
    (by decide) (by decide) (by decide) (by decide)

/-- C6 (amended): a removal that drives the slot generation to the
overflow marker retires the slot: the free list is left untouched, the
dead counter moves up by exactly one, `validCount` drops by one (in the
non-wrapping counting regime), and along every later chain of valid
operations the slot stays retired and no insertion returns a handle
aliasing it.  The hypothesis that the index is not already queued rules
out earlier stale removals of the same slot, and the capacity bound
(maintained by the resize assert) rules out 24-bit index truncation
aliasing a retired slot. -/
theorem C6_retirement {α : Type} (s : SlotMap α) (h : Handle)
    (hwf : s.wf) (hcap : s.handle_count ≤ MAX_HANDLES + 1)
    (hvalid : h.isValid = true)
    (hmatch : s.generations.get? h.index = some h.generation)
    (hmax : h.generation + 1 = MAX_GENERATIONS)
    (hnotin : h.index ∉ s.freelist.toList)
    (hcnt : s.freelist.size + s.dead_indices + 1 ≤ s.handle_count)
    (hU : s.handle_count < U32) :
    ∃ t, s.remove h = some t ∧
      t.freelist = s.freelist ∧
      t.dead_indices = s.dead_indices + 1 ∧
      RetiredInv h.index t ∧
      t.validCount + 1 = s.validCount ∧
      ∀ s2, VChain t s2 → RetiredInv h.index s2 ∧
        ∀ (v : α) (h2 : Handle) (u : SlotMap α),
          s2.insert v = some (h2, u) → h2.index ≠ h.index := by
  obtain ⟨t, hrem, thc, _tmin, twf, _tgoff, tgat, _tmem, tret, _tlive⟩ :=
    remove_live_facts s h hwf hvalid hmatch
  obtain ⟨tfl, tdead⟩ := tret hmax
  have hidx : h.index < s.handle_count := by
    obtain ⟨_, hlen2, _⟩ := hwf
    have := get?_lt_length hmatch
    omega
  have hretInv : RetiredInv h.index t := by
    refine ⟨by omega, ?_, ?_⟩
    · rw [tgat, hmax]
    · rw [tfl]
      exact hnotin
  refine ⟨t, hrem, tfl, tdead, hretInv, ?_, ?_⟩
  · have hvs : s.validCount =
        s.handle_count - s.freelist.size - s.dead_indices :=
      validCount_eq s (by omega) hU
    have hvt : t.validCount =
        t.handle_count - t.freelist.size - t.dead_indices := by
      refine validCount_eq t ?_ ?_
      · rw [thc, tfl, tdead]
        omega
      · rw [thc]
        omega
    rw [hvt, hvs, thc, tfl, tdead]
    omega
  · intro s2 hchain
    obtain ⟨s2wf, _, s2hcb, _⟩ := vchain_mono hchain twf
    have hr2 := retired_chain hchain twf hretInv
    refine ⟨hr2, ?_⟩
    intro v h2 u hins
    exact retired_insert s2wf (s2hcb (by omega)) hr2 hins

/-- Witness for C6 at a concrete input: removing handle (0, 254) from a
two-slot state whose slot 0 is live at generation 254. -/
theorem C6_witness :
    wit6.wf ∧ wit6.handle_count ≤ MAX_HANDLES + 1 ∧
    (Handle.mk 0 254).isValid = true ∧
    wit6.generations.get? (Handle.mk 0 254).index =
      some (Handle.mk 0 254).generation ∧
    (Handle.mk 0 254).generation + 1 = MAX_GENERATIONS ∧
    (Handle.mk 0 254).index ∉ wit6.freelist.toList ∧
    wit6.freelist.size + wit6.dead_indices + 1 ≤ wit6.handle_count ∧
    wit6.handle_count < U32 ∧
    (∃ t, wit6.remove (Handle.mk 0 254) = some t ∧
      t.freelist = wit6.freelist ∧
      t.dead_indices = wit6.dead_indices + 1 ∧
      RetiredInv (Handle.mk 0 254).index t ∧
      t.validCount + 1 = wit6.validCount ∧
      ∀ s2, VChain t s2 → RetiredInv (Handle.mk 0 254).index s2 ∧
        ∀ (v : Nat) (h2 : Handle) (u : SlotMap Nat),
          s2.insert v = some (h2, u) → h2.index ≠ (Handle.mk 0 254).index) :=
  ⟨by decide, by decide, by decide, by decide, by decide, by decide, by decide,
    by decide,
    C6_retirement wit6 (Handle.mk 0 254) (by decide) (by decide) (by decide)
      (by decide) (by decide) (by decide) (by decide) (by decide)⟩

/-- The exhausting removal in the over-24-bit-capacity state: slot 0 is
destroyed, its generation parks at the marker, the dead counter moves to
1 and nothing is queued. -/
theorem bigS0_remove : bigS0.remove ⟨0, 254⟩ = some bigS1 := by
  unfold bigS0 bigS1
  have hguard : ¬((⟨0, 254⟩ : Handle).isValid = false ∨
      (⟨0, 254⟩ : Handle).index > MAX_HANDLES + 2) := by decide
  have hg : ((List.replicate (MAX_HANDLES + 2) 0).set 0 254).get? 0 =
      some 254 :=
    get?_set_self _ _ _ (by simp only [List.length_replicate]; omega)
  unfold SlotMap.remove
  rw [if_neg hguard, hg]
  simp only []
  rw [if_neg (show ¬((254 + 1) % U32 < MAX_GENERATIONS) from by decide)]
  rfl

/-- After that removal slot 0 is retired in the sense of the invariant. -/
theorem bigS1_retired : RetiredInv 0 bigS1 := by
  unfold bigS1
  refine ⟨?_, ?_, ?_⟩
  · show (0 : Nat) < MAX_HANDLES + 2
    omega
  · show (((List.replicate (MAX_HANDLES + 2) 0).set 0 254).set 0 255).get? 0 =
      some MAX_GENERATIONS
    exact get?_set_self _ _ _
      (by simp only [List.length_set, List.length_replicate]; omega)
  · show (0 : Nat) ∉ FreeList.toList ⟨[MAX_HANDLES + 1, 0], 0, 1⟩
    decide

/-- An insertion in a map whose capacity exceeds the 24-bit handle range,
with the single queued index 2^24: the popped index truncates to handle
index 0 (stated for arbitrary array contents, to be instantiated at the
retired state). -/
theorem alias_insert (d : List (Option Nat)) (gens : List Nat)
    (hg : gens.get? (MAX_HANDLES + 1) = some 0) :
    SlotMap.insert (⟨MAX_HANDLES + 2, 1, d, gens,
      ⟨[MAX_HANDLES + 1, 0], 0, 1⟩, 1⟩ : SlotMap Nat) 9 =
      some (⟨0, 0⟩, ⟨MAX_HANDLES + 2, 1, d.set (MAX_HANDLES + 1) (some 9),
        gens, ⟨[MAX_HANDLES + 1, 0], 1, 1⟩, 1⟩) := by
  have hneed : SlotMap.needNewHandles (⟨MAX_HANDLES + 2, 1, d, gens,
      ⟨[MAX_HANDLES + 1, 0], 0, 1⟩, 1⟩ : SlotMap Nat) ≠ true := by
    show ¬(decide (FreeList.size ⟨[MAX_HANDLES + 1, 0], 0, 1⟩ < 1) = true)
    decide
  have hpre : SlotMap.preAlloc (⟨MAX_HANDLES + 2, 1, d, gens,
      ⟨[MAX_HANDLES + 1, 0], 0, 1⟩, 1⟩ : SlotMap Nat) =
      some ⟨MAX_HANDLES + 2, 1, d, gens,
        ⟨[MAX_HANDLES + 1, 0], 0, 1⟩, 1⟩ := by
    unfold SlotMap.preAlloc
    rw [if_neg hneed]
  have hemp : ¬(FreeList.emptyq ⟨[MAX_HANDLES + 1, 0], 0, 1⟩ = true) := by
    decide
  have hpop : FreeList.pop ⟨[MAX_HANDLES + 1, 0], 0, 1⟩ =
      (MAX_HANDLES + 1, ⟨[MAX_HANDLES + 1, 0], 1, 1⟩) := by decide
  have hhandle : (⟨(MAX_HANDLES + 1) % (MAX_HANDLES + 1),
      (0 : Nat) % (MAX_GENERATIONS + 1)⟩ : Handle) = ⟨0, 0⟩ := by
    rw [Nat.mod_self, Nat.zero_mod]
  unfold SlotMap.insert
  rw [hpre]
  simp only []
  rw [if_neg hemp, hpop]
  simp only []
  rw [if_pos (show MAX_HANDLES + 1 < MAX_HANDLES + 2 from by omega), hg]
  simp only []
  rw [hhandle]
  rw [if_pos (show (⟨0, 0⟩ : Handle).isValid = true from by decide)]

/-- The next insertion pops the queued index 2^24, whose 24-bit bitfield
truncation is 0: the returned handle aliases the retired slot. -/
theorem bigS1_insert : bigS1.insert 9 = some (⟨0, 0⟩, bigS2) :=
  alias_insert ((List.replicate (MAX_HANDLES + 2) none).set 0 none)
    (((List.replicate (MAX_HANDLES + 2) 0).set 0 254).set 0 255)
    (by rw [get?_set_ne _ _ _ _ (by omega), get?_set_ne _ _ _ _ (by omega)]
        exact get?_replicate 0 _ _ (by omega))

/-- C6 counterexample: without the amendments the retirement is not
permanent.  In the wraparound trace the slot generation of slot 0 parks
at the marker (state `midS 255 1`), yet one more stale removal raises the
dead counter a second time, and after the full 2^32 removals the slot
has been pushed back onto the free list and `insert` re-issues index 0.
And when the capacity exceeds the 24-bit handle range, an insertion
popping index 2^24 returns a handle whose truncated index aliases the
retired slot 0 even though nothing ever queued slot 0 again. -/
theorem C6_counterexample :
    (midS 255 1).generations.get? 0 = some MAX_GENERATIONS ∧
    (midS 255 1).dead_indices = 1 ∧
    (midS 255 1).remove h00 = some (midS 256 2) ∧
    remIter U32 cexS1 = some cexSF ∧
    cexSF.dead_indices = U32 - 255 ∧
    (0 : Nat) ∈ cexSF.freelist.toList ∧
    cexSG.insert 7 = some (⟨0, 0⟩, cexSH) ∧
    bigS0.handle_count = MAX_HANDLES + 2 ∧
    bigS0.remove ⟨0, 254⟩ = some bigS1 ∧
    RetiredInv 0 bigS1 ∧
    bigS1.insert 9 = some (⟨0, 0⟩, bigS2) :=
  ⟨by decide, by decide, midS_step 255 1 (by decide) (by decide),
    remIter_full, by decide, by decide, by decide,
    rfl, bigS0_remove, bigS1_retired, bigS1_insert⟩

/-- C8: on a wrapped-full free list (tail = head - 1 with head at least
1) the grow step doubles the allocation, keeps the head cursor, copies
the wrapped tail segment to the cells right after the original end,
recomputes the write cursor as head + old_size where old_size is the
number of stored elements, preserves the FIFO content exactly, and the
triggering push then appends its index. -/
theorem C8_wrapped_grow (fl : FreeList) (x : Nat) (hwf : wfFL fl)
    (hh : 1 ≤ fl.head) (ht : fl.tail = fl.head - 1) :
    (fl.growWrapped).buffer.length = 2 * fl.capacity ∧
    (fl.growWrapped).head = fl.head ∧
    (fl.growWrapped).tail = fl.head + fl.size ∧
    (∀ k, k < fl.tail →
      bget (fl.growWrapped).buffer (fl.capacity + k) = bget fl.buffer k) ∧
    (fl.growWrapped).toList = fl.toList ∧
    (fl.push x).toList = fl.toList ++ [x] := by
  obtain ⟨hlen, hhd, htl, hcopy, hsz, _, htL⟩ := growWrapped_spec fl hwf hh ht
  obtain ⟨hwf1, hwf2⟩ := hwf
  refine ⟨hlen, hhd, ?_, hcopy, htL, ?_⟩
  · rw [htl]
    omega
  · have hnc : ¬(fl.head = 1 ∧ fl.tail = fl.capacity) := by
      intro hcon
      omega
    exact (push_spec fl x ⟨hwf1, hwf2⟩ hnc).2.2.2

/-- Witness for C8 at a concrete input: the capacity-4 list holding
9, 10, 7 wrapped around the end, pushed with 42. -/
theorem C8_witness :
    wfFL c8fl ∧ 1 ≤ c8fl.head ∧ c8fl.tail = c8fl.head - 1 ∧
    (c8fl.growWrapped).buffer.length = 2 * c8fl.capacity ∧
    (c8fl.growWrapped).head = c8fl.head ∧
    (c8fl.growWrapped).tail = c8fl.head + c8fl.size ∧
    (c8fl.growWrapped).toList = c8fl.toList ∧
    (c8fl.push 42).toList = c8fl.toList ++ [42] := by
  obtain ⟨h1, h2, h3, _, h5, h6⟩ :=
    C8_wrapped_grow c8fl 42 (by decide) (by decide) (by decide)
  exact ⟨by decide, by decide, by decide, h1, h2, h3, h5, h6⟩

/-- C5 counterexample (the reuse-distance consequence): `remove` does not
validate generations, so removing the handle (0,0) twice queues slot 0
twice; after the legitimate entries are consumed, two successive
insertions both allocate slot 0, with zero distinct other slots between
them although `minimum_available = 1`. -/
theorem C5_counterexample :
    c5s0.minimum_queue_handles = 1 ∧
    c5s0.insert 5 = some (⟨0, 0⟩, c5s1) ∧
    c5s1.remove ⟨0, 0⟩ = some c5s2 ∧
    c5s2.remove ⟨0, 0⟩ = some c5s3 ∧
    c5s3.insert 6 = some (⟨1, 0⟩, c5s4) ∧
    c5s4.insert 7 = some (⟨2, 0⟩, c5s5) ∧
    c5s5.insert 8 = some (⟨0, 2⟩, c5s6) ∧
    c5s6.insert 9 = some (⟨0, 2⟩, c5s7) := by decide

/-- C3 (amended): for a map built with initial capacity C and
minimum-available threshold M (1 ≤ M < C, with room to double within the
24-bit handle range), starting empty and performing only insertions,
every one of the first C - M + 1 insertions leaves `capacity()` at C, and
the (C - M + 2)-th insertion is the first to trigger growth, doubling
`capacity()` to 2C: one insertion later than the point the specification
names. -/
theorem C3_growth_threshold (C M : Nat) (hM1 : 1 ≤ M) (hMC : M < C)
    (hmax : C * 2 ≤ MAX_HANDLES) :
    (∀ j, j ≤ C - M + 1 →
      (insN j (SlotMap.init Nat C M)).map SlotMap.capacity = some C) ∧
    ∃ t, insN (C - M + 2) (SlotMap.init Nat C M) = some t ∧
      t.capacity = C * 2 := by
  have hCH : C ≤ MAX_HANDLES := by omega
  constructor
  · intro j hj
    obtain ⟨d, buf, _, _, _, _, hcase⟩ := c3_run C M hM1 hMC hCH j (by omega)
    rcases hcase with ⟨_, hrun⟩ | ⟨_, _, hrun⟩
    · rw [hrun]
      rfl
    · rw [hrun]
      rfl
  · obtain ⟨d, buf, hd, hCb, h1024, hcells, hcase⟩ :=
      c3_run C M hM1 hMC hCH (C - M + 1) (by omega)
    rcases hcase with ⟨hlt, hrun⟩ | ⟨hjeq, hCeq, hrun⟩
    · have hwfl : wfFL ⟨buf, C - M + 1, C⟩ :=
        ⟨show C - M + 1 < buf.length from hlt,
          show C ≤ buf.length from hCb⟩
      have hsz : FreeList.size ⟨buf, C - M + 1, C⟩ = M - 1 := by
        rw [size_mk, if_neg (by omega)]
        omega
      have hszlt : FreeList.size ⟨buf, C - M + 1, C⟩ < M := by
        rw [hsz]
        omega
      have hh : (⟨buf, C - M + 1, C⟩ : FreeList).head ≠ 1 := by
        show C - M + 1 ≠ 1
        omega
      have hmem : ∀ z, z ∈ (⟨buf, C - M + 1, C⟩ : FreeList).toList →
          z < C := by
        intro z hz
        rw [toList_eq_map] at hz
        obtain ⟨k, hk, hzk⟩ := List.mem_map.mp hz
        rw [List.mem_range, hsz] at hk
        simp only [] at hzk
        have hmod : (C - M + 1 + k) % FreeList.capacity ⟨buf, C - M + 1, C⟩ =
            C - M + 1 + k := by
          show (C - M + 1 + k) % buf.length = C - M + 1 + k
          apply Nat.mod_eq_of_lt
          omega
        rw [hmod] at hzk
        rw [hcells (C - M + 1 + k) (by omega)] at hzk
        omega
      obtain ⟨h, t, hins, hhc⟩ :=
        c3_grow C M ⟨buf, C - M + 1, C⟩ d hM1 hMC hmax hwfl hszlt hh hmem
      refine ⟨t, ?_, hhc⟩
      have h1 : insN 1 (⟨C, M, d, List.replicate C 0, ⟨buf, C - M + 1, C⟩,
          0⟩ : SlotMap Nat) = some t := by
        show (SlotMap.insert (⟨C, M, d, List.replicate C 0,
            ⟨buf, C - M + 1, C⟩, 0⟩ : SlotMap Nat) 0).bind
          (fun p => insN 0 p.2) = some t
        rw [hins]
        rfl
      have h2 := insN_chain (C - M + 1) 1 (SlotMap.init Nat C M) _ t hrun h1
      rw [show C - M + 2 = C - M + 1 + 1 from by omega]
      exact h2
    · have hwfl : wfFL ⟨buf, 0, 0⟩ :=
        ⟨show (0 : Nat) < buf.length from by omega,
          show (0 : Nat) ≤ buf.length from by omega⟩
      have hsz0 : FreeList.size ⟨buf, 0, 0⟩ = 0 := by
        rw [size_mk]
        simp
      have hszlt : FreeList.size ⟨buf, 0, 0⟩ < M := by
        rw [hsz0]
        omega
      have hh : (⟨buf, 0, 0⟩ : FreeList).head ≠ 1 := by
        show (0 : Nat) ≠ 1
        decide
      have hmem : ∀ z, z ∈ (⟨buf, 0, 0⟩ : FreeList).toList → z < C := by
        intro z hz
        rw [toList_eq_map, hsz0] at hz
        simp at hz
      obtain ⟨h, t, hins, hhc⟩ :=
        c3_grow C M ⟨buf, 0, 0⟩ d hM1 hMC hmax hwfl hszlt hh hmem
      refine ⟨t, ?_, hhc⟩
      have h1 : insN 1 (⟨C, M, d, List.replicate C 0, ⟨buf, 0, 0⟩,
          0⟩ : SlotMap Nat) = some t := by
        show (SlotMap.insert (⟨C, M, d, List.replicate C 0,
            ⟨buf, 0, 0⟩, 0⟩ : SlotMap Nat) 0).bind
          (fun p => insN 0 p.2) = some t
        rw [hins]
        rfl
      have h2 := insN_chain (C - M + 1) 1 (SlotMap.init Nat C M) _ t hrun h1
      rw [show C - M + 2 = C - M + 1 + 1 from by omega]
      exact h2

/-- Witness for C3 at a concrete input: capacity 4, threshold 2; the
first three insertions keep capacity 4 and the fourth doubles it. -/
theorem C3_witness :
    (1 ≤ 2 ∧ 2 < 4 ∧ 4 * 2 ≤ MAX_HANDLES) ∧
    (∀ j, j ≤ 4 - 2 + 1 →
      (insN j (SlotMap.init Nat 4 2)).map SlotMap.capacity = some 4) ∧
    ∃ t, insN (4 - 2 + 2) (SlotMap.init Nat 4 2) = some t ∧
      t.capacity = 4 * 2 := by
  have happ := C3_growth_threshold 4 2 (by decide) (by decide) (by decide)
  exact ⟨⟨by decide, by decide, by decide⟩, happ.1, happ.2⟩

/-- C3 counterexample to the stated threshold: with C = 16 and M = 8 the
(C - M + 1)-th = 9th insertion leaves `capacity()` at 16; only the 10th
insertion doubles it to 32. -/
theorem C3_counterexample :
    (insN (16 - 8 + 1) (SlotMap.init Nat 16 8)).map SlotMap.capacity =
      some 16 ∧
    (insN (16 - 8 + 2) (SlotMap.init Nat 16 8)).map SlotMap.capacity =
      some 32 := by
  exact ⟨by decide, by decide⟩

end Slotmap
